import Mathlib

/-!
Verification of the `ashpect/revproxy` reverse proxy: a shallow embedding of
the bounded LRU+TTL cache (`pkg/cache`) and the proxy pipeline
(`pkg/proxy`), with theorems checking the natural-language specification
against the code.

Modelling conventions:
* Go `time.Time` / `time.Duration` values are `Int` nanoseconds; the zero
  `time.Time` sentinel ("never expires") is the integer `0`, matching
  `expiresAt.IsZero()`.
* The Go map `items map[K]*list.Element` is an association list
  `List (K × ttlEntry K V)`; the stored entry models the `Value` of the
  `*list.Element` the map points at.  The doubly linked recency list
  `ll *list.List` is a `List (ttlEntry K V)`, front (MRU) first.
  `list.Remove` / `MoveToFront` of the element the map holds for a key is
  modelled by removing the first list entry carrying that key; the two
  coincide whenever the cache is well formed (each key occurs at most once
  in the list), which is the regime every theorem below works in.
* Panics (`panic("ttlSeconds must be >= 0")`, eviction from an empty list,
  builder option panics) are modelled as `Except CacheErr`; the error is
  produced before any state mutation, exactly as a Go panic unwinds before
  the corresponding writes.
* Goroutines and locks: every cache method runs under the cache mutex in
  the source, so each is modelled as an atomic state transformation.
-/

namespace Revproxy

/-- Nanoseconds per second: Go durations are `int64` nanoseconds. -/
def nsPerSec : Int := 1000000000

instance {E A : Type} [DecidableEq E] [DecidableEq A] :
    DecidableEq (Except E A) := fun x y =>
  match x, y with
  | .error a, .error b =>
    if h : a = b then .isTrue (by rw [h])
    else .isFalse (fun hh => h (by injection hh))
  | .error _, .ok _ => .isFalse (fun hh => Except.noConfusion hh)
  | .ok _, .error _ => .isFalse (fun hh => Except.noConfusion hh)
  | .ok a, .ok b =>
    if h : a = b then .isTrue (by rw [h])
    else .isFalse (fun hh => h (by injection hh))

/-! ## Association-list model of the Go `map[K]*list.Element` -/

/-- Model of Go map indexing `m[k]` (comma-ok form). -/
def mapGet {K A : Type} [DecidableEq K] : List (K × A) → K → Option A
  | [], _ => none
  | p :: r, k => if p.1 = k then some p.2 else mapGet r k

/-- Model of Go `delete(m, k)`: removes every binding of `k` (a Go map
holds at most one). -/
def mapDelete {K A : Type} [DecidableEq K] (m : List (K × A)) (k : K) :
    List (K × A) :=
  m.filter (fun p => ¬ p.1 = k)

/-- Model of Go map assignment `m[k] = v`. -/
def mapSet {K A : Type} [DecidableEq K] (m : List (K × A)) (k : K) (v : A) :
    List (K × A) :=
  mapDelete m k ++ [(k, v)]

/-! ## The LRU+TTL cache (`pkg/cache/lruttl_builder.go`, `pkg/cache/cache.go`) -/

/-- `ttlEntry` stored in each `list.Element` (lruttl_builder.go). -/
structure ttlEntry (K V : Type) where
  key : K
  value : V
  expiresAt : Int
deriving Repr, DecidableEq

/-- Cache error kinds; each models a `panic` site in the source. -/
inductive CacheErr where
  /-- `panic("ttlSeconds must be >= 0")` in `SetWithTTL`. -/
  | invalidTTL
  /-- `panic("capacity is 0")` when eviction finds an empty list. -/
  | emptyEvict
  /-- `panic("capacity must be > 0")` in `WithCapacity`. -/
  | badCapacity
  /-- `panic("default TTL must be >= 0")` in `WithDefaultTTL`. -/
  | badTTL
  /-- `panic("cleanup interval must be > 0")` in `WithCleanupInterval`
  and `StartCleanupDaemon`. -/
  | badInterval
deriving Repr, DecidableEq

/-- `LRUWithTTL` (lruttl_builder.go).  The mutex is elided (all operations
are atomic here); the `cleanupStop` channel and the live sweeper goroutines
are modelled separately by `DaemonState` below. -/
structure LRUWithTTL (K V : Type) where
  capacity : Int
  ll : List (ttlEntry K V)
  items : List (K × ttlEntry K V)
  defaultTTL : Int
  cleanupInterval : Int
  cleanupRunning : Bool
deriving Repr, DecidableEq

/-- `isExpired` (cache.go): zero time means no expiry, otherwise expired
iff `time.Since(expiresAt) > 0`, i.e. `expiresAt < now`. -/
def isExpired {K V : Type} (entry : ttlEntry K V) (now : Int) : Bool :=
  if entry.expiresAt = 0 then false else decide (entry.expiresAt < now)

/-- Removal of the list element holding key `k` (`c.ll.Remove(element)`);
removes the first entry with that key. -/
def llRemoveKey {K V : Type} [DecidableEq K] :
    List (ttlEntry K V) → K → List (ttlEntry K V)
  | [], _ => []
  | e :: r, k => if e.key = k then r else e :: llRemoveKey r k

namespace LRUWithTTL

variable {K V : Type} [DecidableEq K]

/-- `Len` (cache.go): `len(c.items)`. -/
def Len (c : LRUWithTTL K V) : Nat :=
  c.items.length

/-- `Get` (cache.go): value if present and not expired, promoting the
element to the front; an expired entry is removed from both the list and
the map and the call misses. -/
def Get (c : LRUWithTTL K V) (now : Int) (key : K) :
    Option V × LRUWithTTL K V :=
  match mapGet c.items key with
  | none => (none, c)
  | some entry =>
    if isExpired entry now then
      (none, { c with ll := llRemoveKey c.ll key,
                      items := mapDelete c.items key })
    else
      (some entry.value, { c with ll := entry :: llRemoveKey c.ll key })

/-- `GetAll` (cache.go): shallow copy of the current contents. -/
def GetAll (c : LRUWithTTL K V) : List (K × V) :=
  c.items.map (fun p => (p.1, p.2.value))

/-- `Get_Exclusive` (cache.go): returns the value based on the key without
moving it to the front; note the source performs no expiry check here. -/
def Get_Exclusive (c : LRUWithTTL K V) (key : K) : Option V :=
  match mapGet c.items key with
  | none => none
  | some entry => some entry.value

/-- `Delete` (cache.go): removes both the linked-list node and the map
binding when present, no-op otherwise. -/
def Delete (c : LRUWithTTL K V) (key : K) : LRUWithTTL K V :=
  match mapGet c.items key with
  | none => c
  | some _ =>
      { c with ll := llRemoveKey c.ll key,
               items := mapDelete c.items key }

/-- `setWithTTLInternal` (cache.go): update in place and move to front if
the key exists; otherwise evict the tail when full, then push the new
entry at the front and index it. -/
def setWithTTLInternal (c : LRUWithTTL K V) (key : K) (value : V)
    (expiresAt : Int) : Except CacheErr (LRUWithTTL K V) :=
  match mapGet c.items key with
  | some _ =>
      let entry : ttlEntry K V := ⟨key, value, expiresAt⟩
      .ok { c with items := mapSet c.items key entry,
                   ll := entry :: llRemoveKey c.ll key }
  | none =>
      let evicted : Except CacheErr (LRUWithTTL K V) :=
        if (c.items.length : Int) ≥ c.capacity then
          match c.ll.getLast? with
          | none => .error .emptyEvict
          | some tail =>
              .ok { c with ll := c.ll.dropLast,
                           items := mapDelete c.items tail.key }
        else .ok c
      match evicted with
      | .error e => .error e
      | .ok c1 =>
          let entry : ttlEntry K V := ⟨key, value, expiresAt⟩
          .ok { c1 with ll := entry :: c1.ll,
                        items := mapSet c1.items key entry }

/-- `Set` (cache.go): store with expiry `time.Now().Add(c.defaultTTL)`. -/
def Set (c : LRUWithTTL K V) (now : Int) (key : K) (value : V) :
    Except CacheErr (LRUWithTTL K V) :=
  c.setWithTTLInternal key value (now + c.defaultTTL)

/-- `SetWithTTL` (cache.go): positive ttl gives `now + ttl` seconds, zero
ttl gives the never-expiring zero time, negative ttl panics before any
state is touched. -/
def SetWithTTL (c : LRUWithTTL K V) (now : Int) (key : K) (value : V)
    (ttlSeconds : Int) : Except CacheErr (LRUWithTTL K V) :=
  if ttlSeconds > 0 then
    c.setWithTTLInternal key value (now + ttlSeconds * nsPerSec)
  else if ttlSeconds = 0 then
    c.setWithTTLInternal key value 0
  else .error .invalidTTL

end LRUWithTTL

/-- Loop body of `cleanupExpired` (cache.go): walks the list front to
back, dropping expired entries and deleting their keys from the map. -/
def cleanupGo {K V : Type} [DecidableEq K] (now : Int) :
    List (ttlEntry K V) → List (ttlEntry K V) →
    List (K × ttlEntry K V) →
    List (ttlEntry K V) × List (K × ttlEntry K V)
  | [], kept, its => (kept.reverse, its)
  | e :: rest, kept, its =>
    if isExpired e now then cleanupGo now rest kept (mapDelete its e.key)
    else cleanupGo now rest (e :: kept) its

/-- `cleanupExpired` (cache.go): one sweeper pass under the cache lock. -/
def LRUWithTTL.cleanupExpired {K V : Type} [DecidableEq K]
    (c : LRUWithTTL K V) (now : Int) : LRUWithTTL K V :=
  let r := cleanupGo now c.ll [] c.items
  { c with ll := r.1, items := r.2 }

/-! ## Builder (`pkg/cache/lruttl_builder.go`) -/

/-- Functional options accepted by `NewLRUTTL`. -/
inductive LRUOption (K V : Type) where
  | withCapacity (capacity : Int)
  | withDefaultTTL (ttlSeconds : Int)
  | withCleanupInterval (intervalSeconds : Int)
  | withCleanupStart (cleanupRunning : Bool)
  | withItemsMap (itemsMap : List (K × ttlEntry K V))

/-- Whether an option is `WithItemsMap`. -/
def LRUOption.isItemsMap {K V : Type} : LRUOption K V → Bool
  | .withItemsMap _ => true
  | _ => false

/-- Application of a single functional option; a failed validation models
the corresponding `panic`. -/
def applyLRUOption {K V : Type} [DecidableEq K] (c : LRUWithTTL K V) :
    LRUOption K V → Except CacheErr (LRUWithTTL K V)
  | .withCapacity n =>
      if n > 0 then .ok { c with capacity := n } else .error .badCapacity
  | .withDefaultTTL s =>
      if s ≥ 0 then .ok { c with defaultTTL := s * nsPerSec }
      else .error .badTTL
  | .withCleanupInterval s =>
      if s > 0 then .ok { c with cleanupInterval := s * nsPerSec }
      else .error .badInterval
  | .withCleanupStart b => .ok { c with cleanupRunning := b }
  | .withItemsMap m =>
      .ok { c with items := m.foldl (fun its p => mapSet its p.1 p.2) c.items }

/-- Defaults in lruttl_builder.go: capacity 10, TTL 10 minutes, cleanup
interval 10 ms, cleanup auto-start on. -/
def defaultLRU (K V : Type) : LRUWithTTL K V :=
  { capacity := 10, ll := [], items := [], defaultTTL := 600 * nsPerSec,
    cleanupInterval := 10000000, cleanupRunning := true }

/-- `NewLRUTTL` (lruttl_builder.go): fold the options over the default
cache, then auto-start the cleanup daemon when `cleanupRunning` is set
(`StartCleanupDaemon` panics on a non-positive interval). -/
def NewLRUTTL {K V : Type} [DecidableEq K] (opts : List (LRUOption K V)) :
    Except CacheErr (LRUWithTTL K V) :=
  match opts.foldlM applyLRUOption (defaultLRU K V) with
  | .error e => .error e
  | .ok c =>
      if c.cleanupRunning then
        if c.cleanupInterval ≤ 0 then .error .badInterval else .ok c
      else .ok c

/-! ## Sweeper daemon lifecycle (`pkg/cache/cache.go`, CRONJOB section)

The `cleanupStop` channel is modelled by a generation number: closing the
channel terminates exactly the goroutines selecting on the current
generation, and `make(chan struct{})` bumps the generation.  `active`
lists the channel generation each live sweeper goroutine listens on. -/

/-- Daemon-relevant state of the cache: the `cleanupInterval` and
`cleanupRunning` fields, the `cleanupStop` channel (as a generation
counter) and the set of live sweeper goroutines. -/
structure DaemonState where
  cleanupInterval : Int
  chanGen : Nat
  cleanupRunning : Bool
  active : List Nat
deriving Repr, DecidableEq

namespace DaemonState

/-- `StartCleanupDaemon` (cache.go): panics on a non-positive interval,
then unconditionally launches a goroutine selecting on the current stop
channel.  The source neither checks nor sets `cleanupRunning` here. -/
def StartCleanupDaemon (s : DaemonState) : Except CacheErr DaemonState :=
  if s.cleanupInterval ≤ 0 then .error .badInterval
  else .ok { s with active := s.chanGen :: s.active }

/-- `StopCleanupDaemon` (cache.go): when `cleanupRunning` is set, close
the stop channel (terminating every goroutine selecting on it), replace
the channel, and clear the flag; otherwise do nothing. -/
def StopCleanupDaemon (s : DaemonState) : DaemonState :=
  if s.cleanupRunning then
    { s with active := s.active.filter (fun g => ¬ g = s.chanGen),
             chanGen := s.chanGen + 1,
             cleanupRunning := false }
  else s

/-- `Close` (cache.go): exactly `StopCleanupDaemon`. -/
def Close (s : DaemonState) : DaemonState :=
  s.StopCleanupDaemon

end DaemonState

/-- Daemon state produced by `NewLRUTTL`: the `cleanupRunning` flag comes
from the builder options and, when set, `StartCleanupDaemon` runs once at
construction. -/
def newDaemonState (interval : Int) (running : Bool) :
    Except CacheErr DaemonState :=
  let s : DaemonState :=
    { cleanupInterval := interval, chanGen := 0,
      cleanupRunning := running, active := [] }
  if running then s.StartCleanupDaemon else .ok s

/-! ## Character-level string operations

The Go code uses `strings.ToLower`, `strings.Split`, `strings.TrimSpace`,
`strings.HasPrefix`/`TrimPrefix` and `strconv.Atoi`.  These are modelled
over the character list of the string (restricted to ASCII case folding,
which covers every header name and directive the proxy handles), keeping
every definition computable by the kernel. -/

/-- ASCII lower-casing of one character (model of Unicode `ToLower` on
the ASCII range). -/
def lowerChar (c : Char) : Char :=
  if 'A' ≤ c ∧ c ≤ 'Z' then Char.ofNat (c.toNat + 32) else c

/-- `strings.ToLower`, ASCII model. -/
def lowerStr (s : String) : String :=
  String.mk (s.data.map lowerChar)

/-- `strings.TrimSpace` on a character list. -/
def trimChars (l : List Char) : List Char :=
  ((l.dropWhile Char.isWhitespace).reverse.dropWhile Char.isWhitespace).reverse

/-- `strings.Split(s, ",")` on a character list. -/
def splitComma : List Char → List (List Char)
  | [] => [[]]
  | c :: rest =>
    match splitComma rest with
    | [] => [[]]
    | g :: gs => if c = ',' then [] :: g :: gs else (c :: g) :: gs

/-- `strconv.Atoi`: optional sign followed by at least one decimal digit;
anything else is an error.  Range errors on 64-bit overflow are not
modelled. -/
def goAtoiChars (s : List Char) : Option Int :=
  let core : List Char → Option Nat := fun ds =>
    if ds ≠ [] ∧ ds.all Char.isDigit then
      some (ds.foldl (fun n c => 10 * n + c.toNat - 48) 0)
    else none
  match s with
  | '+' :: rest => (core rest).map Int.ofNat
  | '-' :: rest => (core rest).map (fun n => -(n : Int))
  | l => (core l).map Int.ofNat

/-! ## HTTP header model (`net/http.Header`)

A header is an association list from field name to the ordered list of
its values.  `net/http` canonicalises keys on entry, so name comparison
is case-insensitive; the model keeps the key as given and compares names
via `lowerStr` throughout, which is observationally equivalent on
the canonical-keyed maps the Go code manipulates. -/

/-- HTTP header: field name with its ordered values. -/
abbrev Header : Type := List (String × List String)

/-- First element of a value list, or `""` (textproto `Get` on a found
entry). -/
def firstValue : List String → String
  | [] => ""
  | v :: _ => v

/-- `Header.Get`: first value of the first (case-insensitive) matching
key, or `""`. -/
def hGet : Header → String → String
  | [], _ => ""
  | p :: r, key =>
    if (lowerStr p.1) = (lowerStr key) then firstValue p.2 else hGet r key

/-- `Header.Del`: remove the (case-insensitive) key. -/
def hDel (h : Header) (key : String) : Header :=
  h.filter (fun p => ¬ (lowerStr p.1) = (lowerStr key))

/-- `Header.Set`: replace the values of the key with the single value. -/
def hSet (h : Header) (key : String) (value : String) : Header :=
  hDel h key ++ [(key, [value])]

/-- `Header.Add`: append a value to the key, creating it if missing. -/
def hAdd (h : Header) (key : String) (value : String) : Header :=
  if h.any (fun p => (lowerStr p.1) = (lowerStr key)) then
    h.map (fun p => if (lowerStr p.1) = (lowerStr key) then (p.1, p.2 ++ [value]) else p)
  else h ++ [(key, [value])]

/-- The copy loops `for key, values := range header { for _, value :=
range values { w.Header().Add(key, value) } }` of ServeHTTP and
`serveCachedResponse`. -/
def copyHeaders (dst : Header) (src : Header) : Header :=
  src.foldl (fun d p => p.2.foldl (fun d v => hAdd d p.1 v) d) dst

/-! ## Proxy (`pkg/proxy`) -/

/-- `hopByHopHeaders` (pkg/proxy, header stripping file). -/
def hopByHopHeaders : List String :=
  ["Connection", "Proxy-Connection", "Keep-Alive", "Proxy-Authenticate",
   "Proxy-Authorization", "Te", "Trailer", "Transfer-Encoding", "Upgrade"]

/-- `removeHopByHopHeaders`: `Del` each hop-by-hop name. -/
def removeHopByHopHeaders (header : Header) : Header :=
  hopByHopHeaders.foldl hDel header

/-- Inbound or outbound HTTP request, restricted to the fields the proxy
reads: method, URL (string form for the cache key, plus the components the
rewrite touches), `Host`, headers, `RemoteAddr` and the TLS indicator. -/
structure Request where
  method : String
  urlString : String
  urlScheme : String
  urlHost : String
  urlPath : String
  host : String
  header : Header
  remoteAddr : String
  tls : Bool
deriving DecidableEq

/-- `CachedResponse` (pkg/proxy/cache.go). -/
structure CachedResponse where
  status : Int
  header : Header
  body : String
  cachedAt : Int
  expiresAt : Int
deriving DecidableEq

/-- Proxy configuration relevant to the pipeline: the parsed upstream URL
and the host-preservation flag (`pkg/proxy/proxy.go`, struct `proxy`). -/
structure Proxy where
  upstreamScheme : String
  upstreamHost : String
  upstreamPath : String
  preserveOriginalHost : Bool

/-- Modelled from the spec: `singleJoiningSlash` is referenced by
`buildUpstreamRequest` but its definition is not among the provided
sources; per §4.3 it composes the two path segments with exactly one `/`
between them regardless of trailing or leading slashes. -/
def singleJoiningSlash (a b : String) : String :=
  let as := if a.data.getLast? = some '/' then a.data.dropLast else a.data
  let bs := if b.data.head? = some '/' then b.data.tail else b.data
  String.mk (as ++ '/' :: bs)

/-- Host portion of `net.SplitHostPort` (stdlib), simplified: the address
must contain a colon and the host is everything before the last colon;
otherwise the split fails (`missing port in address`).  IPv6 bracket
validation is not modelled; no claim depends on it. -/
def splitHostPortHost (s : String) : Option String :=
  let cs := s.toList
  if cs.contains ':' then
    some (String.mk (((cs.reverse.dropWhile (fun c => ¬ c = ':')).drop 1).reverse))
  else none

/-- `getUniqueReqKey` (proxy.go): the request URL string. -/
def getUniqueReqKey (r : Request) : String :=
  r.urlString

/-- `buildUpstreamRequest` (proxy.go): clone the request, retarget the
URL at the upstream, apply the host policy, strip hop-by-hop headers and
set the `X-Forwarded-*` headers; `X-Forwarded-For` is skipped (the cloned
inbound value, if any, survives) when `net.SplitHostPort` fails on the
remote address.  The source always returns a nil error. -/
def buildUpstreamRequest (p : Proxy) (req : Request) : Request :=
  let h1 := removeHopByHopHeaders req.header
  let h2 := hSet h1 "X-Forwarded-Host" req.host
  let proto := if req.tls then "https" else "http"
  let h3 := hSet h2 "X-Forwarded-Proto" proto
  let h4 :=
    match splitHostPortHost req.remoteAddr with
    | none => h3
    | some s => hSet h3 "X-Forwarded-For" s
  { req with
      urlScheme := p.upstreamScheme,
      urlHost := p.upstreamHost,
      urlPath := singleJoiningSlash p.upstreamPath req.urlPath,
      host := if p.preserveOriginalHost then req.host else p.upstreamHost,
      header := h4 }

/-- Directive scan of `parseMaxAge` (proxy.go): for each comma-separated
directive, trimmed, return the first positive `max-age=` or `s-maxage=`
value; fall through otherwise. -/
def parseMaxAgeGo : List (List Char) → Int
  | [] => 0
  | d0 :: rest =>
    let d := trimChars d0
    let fromMaxAge : Option Int :=
      if List.isPrefixOf "max-age=".data d then
        match goAtoiChars (d.drop 8) with
        | some n => if n > 0 then some n else none
        | none => none
      else none
    match fromMaxAge with
    | some n => n
    | none =>
      let fromSMaxAge : Option Int :=
        if List.isPrefixOf "s-maxage=".data d then
          match goAtoiChars (d.drop 9) with
          | some n => if n > 0 then some n else none
          | none => none
        else none
      match fromSMaxAge with
      | some n => n
      | none => parseMaxAgeGo rest

/-- `parseMaxAge` (proxy.go): lower-case the `Cache-Control` value, split
on commas and scan the directives; `0` when nothing matches. -/
def parseMaxAge (cacheControl : String) : Int :=
  parseMaxAgeGo (splitComma (lowerStr cacheControl).data)

/-- Upstream response as the pipeline sees it: status, headers, and the
outcome of `io.ReadAll(resp.Body)` (`.error` models a body read error). -/
structure UpstreamResponse where
  status : Int
  header : Header
  bodyRead : Except Unit String

/-- Result of `p.client.Do`: a transport error or a response. -/
inductive TransportResult where
  | transportErr
  | ok (resp : UpstreamResponse)

/-- What ServeHTTP wrote to the client and left in the cache. -/
structure ServeResult where
  status : Int
  clientHeader : Header
  body : String
  cacheAfter : Option (LRUWithTTL String CachedResponse)
  outbound : Option Request
deriving DecidableEq

/-- `calculateExpiresAt` (freshness policy source): positive
`max-age`/`s-maxage` wins, else a parseable `Expires` header, else
`now + 60s`.  `parseTime` abstracts the stdlib `http.ParseTime`
HTTP-date parser. -/
def calculateExpiresAt (parseTime : String → Option Int)
    (header : Header) (now : Int) : Int :=
  let defaultTTL : Int := 60 * nsPerSec
  let cacheControl := hGet header "Cache-Control"
  let fromCC : Option Int :=
    if cacheControl ≠ "" then
      let maxAge := parseMaxAge cacheControl
      if maxAge > 0 then some (now + maxAge * nsPerSec) else none
    else none
  match fromCC with
  | some t => t
  | none =>
    let expiresStr := hGet header "Expires"
    let fromExpires : Option Int :=
      if expiresStr ≠ "" then parseTime expiresStr else none
    match fromExpires with
    | some t => t
    | none => now + defaultTTL

/-- `serveCachedResponse` (proxy.go): copy the cached headers into the
response writer, then the cached status and body. -/
def serveCachedResponse (cachedResp : CachedResponse) : ServeResult →
    ServeResult :=
  fun res =>
    { res with
        status := cachedResp.status,
        clientHeader := copyHeaders [] cachedResp.header,
        body := cachedResp.body }

/-- Store block of the miss path (`if isCacheable && p.cache != nil`
in ServeHTTP): returns the cache value after the optional store
(`SetWithTTL` when the parsed max-age is positive, `Set` otherwise). -/
def storeInCache (cacheOpt : Option (LRUWithTTL String CachedResponse))
    (isCacheable : Bool) (now : Int) (uniqueKey : String)
    (cachedResp : CachedResponse) (ttl : Int) :
    Except CacheErr (Option (LRUWithTTL String CachedResponse)) :=
  if isCacheable then
    match cacheOpt with
    | some c =>
        match (if ttl > 0 then c.SetWithTTL now uniqueKey cachedResp ttl
               else c.Set now uniqueKey cachedResp) with
        | .error e => .error e
        | .ok c2 => .ok (some c2)
    | none => .ok cacheOpt
  else .ok cacheOpt

/-- Miss path of `ServeHTTP` (proxy.go): rewrite, send, strip, read the
body, copy headers out, store when cacheable, write status and body. -/
def serveMiss (p : Proxy) (cacheOpt : Option (LRUWithTTL String CachedResponse))
    (now : Int) (r : Request) (isCacheable : Bool) (uniqueKey : String)
    (transport : Request → TransportResult) :
    Except CacheErr ServeResult :=
  let outReq := buildUpstreamRequest p r
  match transport outReq with
  | .transportErr =>
      .ok { status := 502, clientHeader := [], body := "upstream error",
            cacheAfter := cacheOpt, outbound := some outReq }
  | .ok resp =>
    let respHeader := removeHopByHopHeaders resp.header
    match resp.bodyRead with
    | .error _ =>
        .ok { status := 500, clientHeader := [],
              body := "error reading response",
              cacheAfter := cacheOpt, outbound := some outReq }
    | .ok bodyBytes =>
      let clientHeader := copyHeaders [] respHeader
      let ttl := parseMaxAge (hGet respHeader "Cache-Control")
      match storeInCache cacheOpt isCacheable now uniqueKey
          { status := resp.status, header := respHeader,
            body := bodyBytes, cachedAt := now, expiresAt := 0 } ttl with
      | .error e => .error e
      | .ok cacheOpt2 =>
          .ok { status := resp.status, clientHeader := clientHeader,
                body := bodyBytes, cacheAfter := cacheOpt2,
                outbound := some outReq }

/-- `ServeHTTP` (pkg/proxy/proxy.go, cached variant): cache lookup for
GET requests when a cache is attached, replay on hit, otherwise the miss
path. -/
def ServeHTTP (p : Proxy) (cacheOpt : Option (LRUWithTTL String CachedResponse))
    (now : Int) (r : Request) (transport : Request → TransportResult) :
    Except CacheErr ServeResult :=
  let isCacheable : Bool := r.method = "GET"
  let uniqueKey := getUniqueReqKey r
  if isCacheable then
    match cacheOpt with
    | some c =>
        let looked := c.Get now uniqueKey
        match looked.1 with
        | some cachedResp =>
            .ok (serveCachedResponse cachedResp
              { status := 0, clientHeader := [], body := "",
                cacheAfter := some looked.2, outbound := none })
        | none =>
            serveMiss p (some looked.2) now r isCacheable uniqueKey transport
    | none => serveMiss p cacheOpt now r isCacheable uniqueKey transport
  else serveMiss p cacheOpt now r isCacheable uniqueKey transport

/-! ## Sample values for concrete instantiations -/

/-- One-entry cache whose entry never expires (zero sentinel). -/
def sampleCacheLive : LRUWithTTL String Nat :=
  { capacity := 10, ll := [⟨"k", 5, 0⟩], items := [("k", ⟨"k", 5, 0⟩)],
    defaultTTL := 600 * nsPerSec, cleanupInterval := 10000000,
    cleanupRunning := false }

/-- One-entry cache whose entry expired at time 3. -/
def sampleCacheExpired : LRUWithTTL String Nat :=
  { capacity := 10, ll := [⟨"k", 5, 3⟩], items := [("k", ⟨"k", 5, 3⟩)],
    defaultTTL := 600 * nsPerSec, cleanupInterval := 10000000,
    cleanupRunning := false }

/-- Full capacity-1 cache holding the single entry `a`. -/
def sampleCacheCap1 : LRUWithTTL String Nat :=
  { capacity := 1, ll := [⟨"a", 1, 0⟩], items := [("a", ⟨"a", 1, 0⟩)],
    defaultTTL := 600 * nsPerSec, cleanupInterval := 10000000,
    cleanupRunning := false }

/-- Sample proxy configuration. -/
def sampleProxy : Proxy :=
  { upstreamScheme := "http", upstreamHost := "origin.internal:8080",
    upstreamPath := "", preserveOriginalHost := false }

/-- Sample GET request carrying a hop-by-hop header and a client-supplied
`X-Forwarded-For`. -/
def sampleGetReq : Request :=
  { method := "GET", urlString := "/x", urlScheme := "http",
    urlHost := "example.com", urlPath := "/x", host := "example.com",
    header := [("Connection", ["close"]), ("X-Forwarded-For", ["evil"])],
    remoteAddr := "9.9.9.9:1234", tls := false }

/-- Proxy-side cache holding one expired response under key `/x`. -/
def sampleProxyCacheExpired : LRUWithTTL String CachedResponse :=
  { capacity := 10,
    ll := [⟨"/x", ⟨200, [], "old", 0, 3⟩, 3⟩],
    items := [("/x", ⟨"/x", ⟨200, [], "old", 0, 3⟩, 3⟩)],
    defaultTTL := 600 * nsPerSec, cleanupInterval := 10000000,
    cleanupRunning := false }

/-! ## Invariants -/

/-- Keys of an association list. -/
def keysOf {K A : Type} (m : List (K × A)) : List K :=
  m.map Prod.fst

/-- Keys of the recency list. -/
def llKeys {K V : Type} (ll : List (ttlEntry K V)) : List K :=
  ll.map ttlEntry.key

/-- Map/list well-formedness: distinct keys on both sides, equal sizes
bounded by the capacity, every map binding holds an entry of the list
with the bound key, and every list entry is indexed by the map under its
key.  This is the inductive strengthening of the invariant stated by the
spec. -/
def WF {K V : Type} [DecidableEq K] (c : LRUWithTTL K V) : Prop :=
  (llKeys c.ll).Nodup ∧
  (keysOf c.items).Nodup ∧
  c.items.length = c.ll.length ∧
  (c.items.length : Int) ≤ c.capacity ∧
  (∀ p ∈ c.items, p.2.key = p.1 ∧ p.2 ∈ c.ll) ∧
  (∀ e ∈ c.ll, mapGet c.items e.key = some e)

instance {K V : Type} [DecidableEq K] [DecidableEq V]
    (c : LRUWithTTL K V) : Decidable (WF c) := by
  unfold WF
  infer_instance

/-- The invariant exactly as the spec states it: `|map| == |list|`, every
key in the map refers to an entry present exactly once in the list with
the same key, and `|map| ≤ capacity`. -/
def cacheClaimInv {K V : Type} [DecidableEq K] (c : LRUWithTTL K V) : Prop :=
  c.items.length = c.ll.length ∧
  (∀ p ∈ c.items, p.2.key = p.1 ∧ p.2 ∈ c.ll ∧
    c.ll.countP (fun e => decide (e.key = p.1)) = 1) ∧
  (c.items.length : Int) ≤ c.capacity

instance {K V : Type} [DecidableEq K] [DecidableEq V]
    (c : LRUWithTTL K V) : Decidable (cacheClaimInv c) := by
  unfold cacheClaimInv
  infer_instance

/-- Hop-by-hop freedom of a header: no field name is (case-insensitively)
one of the nine hop-by-hop names. -/
def hopFree (h : Header) : Prop :=
  ∀ p ∈ h, (lowerStr p.1) ∉ hopByHopHeaders.map lowerStr

instance (h : Header) : Decidable (hopFree h) := by
  unfold hopFree
  infer_instance

/-- Every response stored in a cache has hop-by-hop-free headers (checked
on both owners of the entries). -/
def cacheHopFree (c : LRUWithTTL String CachedResponse) : Prop :=
  (∀ e ∈ c.ll, hopFree e.value.header) ∧
  (∀ p ∈ c.items, hopFree p.2.value.header)

instance (c : LRUWithTTL String CachedResponse) :
    Decidable (cacheHopFree c) := by
  unfold cacheHopFree
  infer_instance

/-! ## Association-list lemmas -/

section MapLemmas

variable {K A : Type} [DecidableEq K]

theorem mapGet_mem {m : List (K × A)} {k : K} {v : A}
    (h : mapGet m k = some v) : (k, v) ∈ m := by
  induction m with
  | nil => simp [mapGet] at h
  | cons p r ih =>
    obtain ⟨a, b⟩ := p
    by_cases hk : a = k
    · subst hk
      simp only [mapGet, if_pos rfl] at h
      obtain rfl : b = v := by injection h
      exact List.mem_cons_self _ _
    · simp only [mapGet, if_neg hk] at h
      exact List.mem_cons_of_mem _ (ih h)

theorem mapGet_eq_none_iff {m : List (K × A)} {k : K} :
    mapGet m k = none ↔ ∀ p ∈ m, p.1 ≠ k := by
  induction m with
  | nil => simp [mapGet]
  | cons p r ih =>
    by_cases hk : p.1 = k
    · simp [mapGet, if_pos hk, hk]
    · simp [mapGet, if_neg hk, ih, hk]

theorem mem_mapDelete {m : List (K × A)} {k : K} {p : K × A} :
    p ∈ mapDelete m k ↔ p ∈ m ∧ p.1 ≠ k := by
  simp [mapDelete, List.mem_filter]

theorem mapDelete_sublist (m : List (K × A)) (k : K) :
    List.Sublist (mapDelete m k) m :=
  List.filter_sublist m

theorem mapGet_mapDelete {m : List (K × A)} {k k' : K} :
    mapGet (mapDelete m k) k' = if k' = k then none else mapGet m k' := by
  induction m with
  | nil => simp [mapGet, mapDelete]
  | cons p r ih =>
    by_cases hpk : p.1 = k
    · by_cases h' : k' = k
      · simp_all [mapDelete, mapGet]
      · have hp : ¬ p.1 = k' := by
          rw [hpk]
          intro hh
          exact h' hh.symm
        simp_all [mapDelete, mapGet]
    · by_cases hp' : p.1 = k'
      · simp_all [mapDelete, mapGet]
      · simp_all [mapDelete, mapGet]

theorem mapGet_append {a b : List (K × A)} {k : K} :
    mapGet (a ++ b) k =
      match mapGet a k with
      | some v => some v
      | none => mapGet b k := by
  induction a with
  | nil => simp [mapGet]
  | cons p r ih =>
    by_cases hk : p.1 = k
    · simp [mapGet, if_pos hk]
    · simp [mapGet, if_neg hk, ih]

theorem mapGet_mapSet {m : List (K × A)} {k k' : K} {v : A} :
    mapGet (mapSet m k v) k' = if k' = k then some v else mapGet m k' := by
  by_cases h : k' = k
  · subst h
    simp [mapSet, mapGet_append, mapGet_mapDelete, mapGet]
  · simp only [mapSet, mapGet_append, mapGet_mapDelete, if_neg h]
    have : ¬ k = k' := fun hh => h hh.symm
    cases hm : mapGet m k' <;> simp [mapGet, if_neg this, hm]

theorem mapDelete_eq_of_none {m : List (K × A)} {k : K}
    (h : mapGet m k = none) : mapDelete m k = m := by
  rw [mapGet_eq_none_iff] at h
  unfold mapDelete
  exact List.filter_eq_self.mpr (by
    intro p hp
    exact decide_eq_true (h p hp))

theorem keysOf_mapDelete_sublist (m : List (K × A)) (k : K) :
    List.Sublist (keysOf (mapDelete m k)) (keysOf m) :=
  (mapDelete_sublist m k).map Prod.fst

theorem not_mem_keysOf_mapDelete (m : List (K × A)) (k : K) :
    k ∉ keysOf (mapDelete m k) := by
  intro hmem
  simp only [keysOf, List.mem_map] at hmem
  obtain ⟨p, hp, hpk⟩ := hmem
  exact (mem_mapDelete.mp hp).2 hpk

theorem keysOf_mapSet_nodup {m : List (K × A)} {k : K} {v : A}
    (h : (keysOf m).Nodup) : (keysOf (mapSet m k v)).Nodup := by
  have hdel : (keysOf (mapDelete m k)).Nodup :=
    h.sublist (keysOf_mapDelete_sublist m k)
  have : keysOf (mapSet m k v) = keysOf (mapDelete m k) ++ [k] := by
    simp [mapSet, keysOf]
  rw [this]
  refine List.Nodup.append hdel (List.nodup_singleton k) ?_
  intro x hx hx'
  have hxk : x = k := by simpa using hx'
  rw [hxk] at hx
  exact not_mem_keysOf_mapDelete m k hx

omit [DecidableEq K] in
theorem mem_keysOf {m : List (K × A)} {k : K} :
    k ∈ keysOf m ↔ ∃ p ∈ m, p.1 = k := by
  unfold keysOf
  rw [List.mem_map]

theorem mapGet_isSome_of_mem_keysOf {m : List (K × A)} {k : K}
    (h : k ∈ keysOf m) : mapGet m k ≠ none := by
  intro hn
  rw [mapGet_eq_none_iff] at hn
  obtain ⟨p, hp, hpk⟩ := mem_keysOf.mp h
  exact hn p hp hpk

theorem mapDelete_length {m : List (K × A)} {k : K} {v : A}
    (hn : (keysOf m).Nodup) (h : mapGet m k = some v) :
    (mapDelete m k).length + 1 = m.length := by
  induction m with
  | nil => simp [mapGet] at h
  | cons p r ih =>
    obtain ⟨a, b⟩ := p
    have hn1 : a ∉ keysOf r ∧ (keysOf r).Nodup := by
      simpa [keysOf] using hn
    by_cases hk : a = k
    · subst hk
      have hr : mapDelete r a = r := by
        apply mapDelete_eq_of_none
        cases hg : mapGet r a with
        | none => rfl
        | some w =>
          exact absurd (mem_keysOf.mpr ⟨(a, w), mapGet_mem hg, rfl⟩) hn1.1
      have hstep : mapDelete ((a, b) :: r) a = mapDelete r a := by
        simp [mapDelete]
      rw [hstep, hr]
      simp
    · have hstep : mapDelete ((a, b) :: r) k = (a, b) :: mapDelete r k := by
        simp [mapDelete, hk]
      simp only [mapGet, if_neg hk] at h
      rw [hstep]
      have := ih hn1.2 h
      simp only [List.length_cons]
      omega

theorem mapGet_of_mem_nodup {m : List (K × A)} {k : K} {v : A}
    (hn : (keysOf m).Nodup) (h : (k, v) ∈ m) : mapGet m k = some v := by
  induction m with
  | nil => simp at h
  | cons p r ih =>
    rcases List.mem_cons.mp h with h1 | h2
    · rw [← h1]
      simp [mapGet]
    · have hk : ¬ p.1 = k := by
        intro hpk
        have hkr : k ∈ keysOf r := mem_keysOf.mpr ⟨(k, v), h2, rfl⟩
        simp only [keysOf, List.map_cons, List.nodup_cons, hpk] at hn
        exact hn.1 hkr
      have hn' : (keysOf r).Nodup := by
        simp only [keysOf, List.map_cons, List.nodup_cons] at hn
        exact hn.2
      simp only [mapGet, if_neg hk]
      exact ih hn' h2

end MapLemmas

/-! ## Recency-list lemmas -/

section LLLemmas

variable {K V : Type} [DecidableEq K]

theorem llRemoveKey_sublist (ll : List (ttlEntry K V)) (k : K) :
    List.Sublist (llRemoveKey ll k) ll := by
  induction ll with
  | nil => simp [llRemoveKey]
  | cons e r ih =>
    by_cases hk : e.key = k
    · simp only [llRemoveKey, if_pos hk]
      exact (List.sublist_cons_self e r)
    · simp only [llRemoveKey, if_neg hk]
      exact ih.cons₂ e

theorem mem_of_mem_llRemoveKey {ll : List (ttlEntry K V)} {k : K}
    {e : ttlEntry K V} (h : e ∈ llRemoveKey ll k) : e ∈ ll :=
  (llRemoveKey_sublist ll k).subset h

theorem mem_llRemoveKey_of_key_ne {ll : List (ttlEntry K V)} {k : K}
    {e : ttlEntry K V} (he : e ∈ ll) (hk : e.key ≠ k) :
    e ∈ llRemoveKey ll k := by
  induction ll with
  | nil => simp at he
  | cons e0 r ih =>
    rcases List.mem_cons.mp he with h1 | h2
    · subst h1
      simp only [llRemoveKey, if_neg hk]
      exact List.mem_cons_self _ _
    · by_cases h0 : e0.key = k
      · simpa [llRemoveKey, if_pos h0] using h2
      · simp only [llRemoveKey, if_neg h0]
        exact List.mem_cons_of_mem _ (ih h2)

theorem llRemoveKey_eq_of_not_mem {ll : List (ttlEntry K V)} {k : K}
    (h : ∀ e ∈ ll, e.key ≠ k) : llRemoveKey ll k = ll := by
  induction ll with
  | nil => rfl
  | cons e r ih =>
    have hek : e.key ≠ k := h e (List.mem_cons_self _ _)
    simp only [llRemoveKey, if_neg hek]
    rw [ih (fun x hx => h x (List.mem_cons_of_mem _ hx))]

theorem llRemoveKey_length {ll : List (ttlEntry K V)} {k : K}
    {e : ttlEntry K V} (he : e ∈ ll) (hk : e.key = k) :
    (llRemoveKey ll k).length + 1 = ll.length := by
  induction ll with
  | nil => simp at he
  | cons e0 r ih =>
    by_cases h0 : e0.key = k
    · simp [llRemoveKey, if_pos h0]
    · rcases List.mem_cons.mp he with h1 | h2
      · subst h1
        exact absurd hk h0
      · simp only [llRemoveKey, if_neg h0, List.length_cons]
        rw [← ih h2]

theorem llKeys_llRemoveKey_sublist (ll : List (ttlEntry K V)) (k : K) :
    List.Sublist (llKeys (llRemoveKey ll k)) (llKeys ll) :=
  (llRemoveKey_sublist ll k).map ttlEntry.key

theorem key_ne_of_mem_llRemoveKey {ll : List (ttlEntry K V)} {k : K}
    (hn : (llKeys ll).Nodup) {e0 : ttlEntry K V} (h0 : e0 ∈ ll)
    (h0k : e0.key = k) {e : ttlEntry K V} (he : e ∈ llRemoveKey ll k) :
    e.key ≠ k := by
  induction ll with
  | nil => simp at h0
  | cons a r ih =>
    have hn1 : a.key ∉ llKeys r ∧ (llKeys r).Nodup := by
      simpa [llKeys] using hn
    by_cases ha : a.key = k
    · simp only [llRemoveKey, if_pos ha] at he
      intro hek
      have : e.key ∈ llKeys r := List.mem_map_of_mem ttlEntry.key he
      rw [hek, ← ha] at this
      exact hn1.1 this
    · simp only [llRemoveKey, if_neg ha] at he
      rcases List.mem_cons.mp h0 with h1 | h2
      · subst h1
        exact absurd h0k ha
      · rcases List.mem_cons.mp he with hh1 | hh2
        · subst hh1
          exact ha
        · exact ih hn1.2 h2 hh2

theorem countP_key_eq_one {ll : List (ttlEntry K V)} {k : K}
    (hn : (llKeys ll).Nodup) {e : ttlEntry K V} (he : e ∈ ll)
    (hk : e.key = k) :
    ll.countP (fun x => decide (x.key = k)) = 1 := by
  induction ll with
  | nil => simp at he
  | cons a r ih =>
    have hn1 : a.key ∉ llKeys r ∧ (llKeys r).Nodup := by
      simpa [llKeys] using hn
    by_cases ha : a.key = k
    · have hr : r.countP (fun x => decide (x.key = k)) = 0 := by
        rw [List.countP_eq_zero]
        intro x hx
        simp only [decide_eq_true_eq]
        intro hxk
        have : x.key ∈ llKeys r := List.mem_map_of_mem ttlEntry.key hx
        rw [hxk, ← ha] at this
        exact hn1.1 this
      rw [List.countP_cons]
      simp [ha, hr]
    · rcases List.mem_cons.mp he with h1 | h2
      · subst h1
        exact absurd hk ha
      · rw [List.countP_cons]
        simp only [decide_eq_true_eq, ha, if_false]
        rw [ih hn1.2 h2]

theorem key_not_mem_llKeys_of_mapGet_none {c : LRUWithTTL K V}
    (hwf : WF c) {k : K} (h : mapGet c.items k = none) :
    k ∉ llKeys c.ll := by
  intro hmem
  obtain ⟨e, he, hek⟩ := by
    simpa only [llKeys, List.mem_map] using hmem
  obtain ⟨-, -, -, -, -, hll⟩ := hwf
  have := hll e he
  rw [hek, h] at this
  exact Option.noConfusion this

end LLLemmas

/-! ## Well-formedness preservation -/

section WFLemmas

variable {K V : Type} [DecidableEq K]

theorem WF.entry_of_mapGet {c : LRUWithTTL K V} (hwf : WF c) {k : K}
    {entry : ttlEntry K V} (h : mapGet c.items k = some entry) :
    entry.key = k ∧ entry ∈ c.ll := by
  obtain ⟨-, -, -, -, hitems, -⟩ := hwf
  have := hitems (k, entry) (mapGet_mem h)
  exact this

/-- Removing a present key from both owners preserves well-formedness
(shared by `Get` on an expired entry and by `Delete`). -/
theorem WF_removeBoth {c : LRUWithTTL K V} (hwf : WF c) {k : K}
    {entry : ttlEntry K V} (h : mapGet c.items k = some entry) :
    WF { c with ll := llRemoveKey c.ll k, items := mapDelete c.items k } := by
  obtain ⟨hek, hel⟩ := hwf.entry_of_mapGet h
  obtain ⟨hlln, hitn, hsz, hle, hitems, hll⟩ := hwf
  refine ⟨?_, ?_, ?_, ?_, ?_, ?_⟩
  · exact hlln.sublist (llKeys_llRemoveKey_sublist c.ll k)
  · exact hitn.sublist (keysOf_mapDelete_sublist c.items k)
  · have h1 := mapDelete_length hitn h
    have h2 := llRemoveKey_length hel hek
    simp only
    omega
  · have h1 : (mapDelete c.items k).length ≤ c.items.length :=
      (mapDelete_sublist c.items k).length_le
    simp only
    omega
  · intro p hp
    obtain ⟨hpm, hpk⟩ := mem_mapDelete.mp hp
    obtain ⟨hk1, hk2⟩ := hitems p hpm
    exact ⟨hk1, mem_llRemoveKey_of_key_ne hk2 (hk1.symm ▸ hpk)⟩
  · intro e he
    have hem := mem_of_mem_llRemoveKey he
    have hne : e.key ≠ k := key_ne_of_mem_llRemoveKey hlln hel hek he
    rw [mapGet_mapDelete, if_neg hne]
    exact hll e hem

/-- Moving the entry of a present key to the front preserves
well-formedness (`Get` on a live entry). -/
theorem WF_promote {c : LRUWithTTL K V} (hwf : WF c) {k : K}
    {entry : ttlEntry K V} (h : mapGet c.items k = some entry) :
    WF { c with ll := entry :: llRemoveKey c.ll k } := by
  obtain ⟨hek, hel⟩ := hwf.entry_of_mapGet h
  obtain ⟨hlln, hitn, hsz, hle, hitems, hll⟩ := hwf
  refine ⟨?_, hitn, ?_, hle, ?_, ?_⟩
  · simp only [llKeys, List.map_cons, List.nodup_cons]
    constructor
    · intro hmem
      obtain ⟨e, he, hkey⟩ := by
        simpa only [List.mem_map] using hmem
      exact key_ne_of_mem_llRemoveKey hlln hel hek he (hkey.trans hek)
    · exact hlln.sublist (llKeys_llRemoveKey_sublist c.ll k)
  · have h2 := llRemoveKey_length hel hek
    simp only [List.length_cons]
    omega
  · intro p hp
    obtain ⟨hk1, hk2⟩ := hitems p hp
    by_cases hpk : p.1 = k
    · have : mapGet c.items p.1 = some p.2 := mapGet_of_mem_nodup hitn hp
      rw [hpk, h] at this
      obtain rfl : entry = p.2 := by injection this
      exact ⟨hk1, List.mem_cons_self _ _⟩
    · refine ⟨hk1, List.mem_cons_of_mem _ ?_⟩
      exact mem_llRemoveKey_of_key_ne hk2 (hk1.symm ▸ hpk)
  · intro e he
    rcases List.mem_cons.mp he with h1 | h2
    · subst h1
      rw [hek]
      exact h
    · exact hll e (mem_of_mem_llRemoveKey h2)

/-- `Get` preserves well-formedness. -/
theorem WF_Get {c : LRUWithTTL K V} (hwf : WF c) (now : Int) (k : K) :
    WF (c.Get now k).2 := by
  unfold LRUWithTTL.Get
  cases h : mapGet c.items k with
  | none => exact hwf
  | some entry =>
    by_cases hexp : isExpired entry now
    · simpa [hexp] using WF_removeBoth hwf h
    · simpa [hexp] using WF_promote hwf h

/-- `Delete` preserves well-formedness. -/
theorem WF_Delete {c : LRUWithTTL K V} (hwf : WF c) (k : K) :
    WF (c.Delete k) := by
  unfold LRUWithTTL.Delete
  cases h : mapGet c.items k with
  | none => exact hwf
  | some entry => exact WF_removeBoth hwf h

end WFLemmas

theorem dropLast_append_of_getLast? {A : Type} {l : List A} {a : A}
    (h : l.getLast? = some a) : l.dropLast ++ [a] = l := by
  induction l with
  | nil => simp at h
  | cons x r ih =>
    cases r with
    | nil =>
      obtain rfl : x = a := by simpa using h
      rfl
    | cons y t =>
      have h' : (y :: t).getLast? = some a := by
        simpa [List.getLast?_cons_cons] using h
      have := ih h'
      simp only [List.dropLast_cons₂, List.cons_append, this]

section WFSet

variable {K V : Type} [DecidableEq K]

/-- Well-formedness is preserved by `setWithTTLInternal` whenever it
succeeds. -/
theorem WF_setWithTTLInternal {c : LRUWithTTL K V} (hwf : WF c) (k : K)
    (v : V) (t : Int) {c' : LRUWithTTL K V}
    (h : c.setWithTTLInternal k v t = .ok c') : WF c' := by
  obtain ⟨hlln, hitn, hsz, hle, hitems, hll⟩ := hwf
  unfold LRUWithTTL.setWithTTLInternal at h
  cases hget : mapGet c.items k with
  | some old =>
    rw [hget] at h
    obtain rfl : _ = c' := by injection h
    obtain ⟨hok, hol⟩ := WF.entry_of_mapGet
      ⟨hlln, hitn, hsz, hle, hitems, hll⟩ hget
    refine ⟨?_, keysOf_mapSet_nodup hitn, ?_, ?_, ?_, ?_⟩
    · simp only [llKeys, List.map_cons, List.nodup_cons]
      constructor
      · intro hmem
        obtain ⟨e, he, hkey⟩ := by
          simpa only [List.mem_map] using hmem
        exact key_ne_of_mem_llRemoveKey hlln hol hok he hkey
      · exact hlln.sublist (llKeys_llRemoveKey_sublist c.ll k)
    · have h1 := mapDelete_length hitn hget
      have h2 := llRemoveKey_length hol hok
      simp only [mapSet, List.length_append, List.length_cons,
        List.length_nil]
      omega
    · have h1 := mapDelete_length hitn hget
      simp only [mapSet, List.length_append, List.length_cons,
        List.length_nil]
      omega
    · intro p hp
      rcases List.mem_append.mp hp with h1 | h2
      · obtain ⟨hpm, hpk⟩ := mem_mapDelete.mp h1
        obtain ⟨hk1, hk2⟩ := hitems p hpm
        refine ⟨hk1, List.mem_cons_of_mem _ ?_⟩
        exact mem_llRemoveKey_of_key_ne hk2 (hk1.symm ▸ hpk)
      · obtain rfl : p = (k, ⟨k, v, t⟩) := by simpa using h2
        exact ⟨rfl, List.mem_cons_self _ _⟩
    · intro e he
      rcases List.mem_cons.mp he with h1 | h2
      · subst h1
        rw [show (ttlEntry.mk k v t).key = k from rfl, mapGet_mapSet, if_pos rfl]
      · have hne : e.key ≠ k := key_ne_of_mem_llRemoveKey hlln hol hok h2
        rw [mapGet_mapSet, if_neg hne]
        exact hll e (mem_of_mem_llRemoveKey h2)
  | none =>
    rw [hget] at h
    have hdel : mapDelete c.items k = c.items := mapDelete_eq_of_none hget
    have hkll : k ∉ llKeys c.ll :=
      key_not_mem_llKeys_of_mapGet_none ⟨hlln, hitn, hsz, hle, hitems, hll⟩ hget
    by_cases hcap : (c.items.length : Int) ≥ c.capacity
    · rw [if_pos hcap] at h
      cases hlast : c.ll.getLast? with
      | none => rw [hlast] at h; exact absurd h (by simp)
      | some tail =>
        rw [hlast] at h
        obtain rfl : _ = c' := by injection h
        have hsplit : c.ll.dropLast ++ [tail] = c.ll :=
          dropLast_append_of_getLast? hlast
        have htmem : tail ∈ c.ll := by
          rw [← hsplit]
          exact List.mem_append_right _ (List.mem_cons_self _ _)
        have hkeysplit : llKeys c.ll.dropLast ++ [tail.key] = llKeys c.ll := by
          rw [← hsplit]
          simp [llKeys]
        have hdln : (llKeys c.ll.dropLast).Nodup ∧
            tail.key ∉ llKeys c.ll.dropLast := by
          have hsp := hlln
          rw [← hkeysplit, List.nodup_append] at hsp
          exact ⟨hsp.1, fun hmem => hsp.2.2 hmem (List.mem_singleton_self _)⟩
        have hgt : mapGet c.items tail.key = some tail := hll tail htmem
        have hlen1 := mapDelete_length hitn hgt
        have hlen2 : c.ll.dropLast.length + 1 = c.ll.length := by
          have := congrArg List.length hsplit
          simpa using this
        have hkdl : k ∉ llKeys c.ll.dropLast := by
          intro hmem
          apply hkll
          rw [← hkeysplit]
          exact List.mem_append_left _ hmem
        have hgd : mapGet (mapDelete c.items tail.key) k = none := by
          rw [mapGet_mapDelete]
          split
          · rfl
          · exact hget
        have hdd : mapDelete (mapDelete c.items tail.key) k =
            mapDelete c.items tail.key := mapDelete_eq_of_none hgd
        refine ⟨?_, ?_, ?_, ?_, ?_, ?_⟩
        · simp only [llKeys, List.map_cons, List.nodup_cons]
          exact ⟨hkdl, hdln.1⟩
        · exact keysOf_mapSet_nodup (hitn.sublist (keysOf_mapDelete_sublist _ _))
        · simp only [mapSet, hdd, List.length_append, List.length_cons,
            List.length_nil]
          omega
        · simp only [mapSet, hdd, List.length_append, List.length_cons,
            List.length_nil]
          omega
        · intro p hp
          rcases List.mem_append.mp hp with h1 | h2
          · obtain ⟨hpm1, hpk⟩ := mem_mapDelete.mp h1
            obtain ⟨hpm2, hpt⟩ := mem_mapDelete.mp hpm1
            obtain ⟨hk1, hk2⟩ := hitems p hpm2
            refine ⟨hk1, List.mem_cons_of_mem _ ?_⟩
            rw [← hsplit] at hk2
            rcases List.mem_append.mp hk2 with hd | ht
            · exact hd
            · obtain rfl : p.2 = tail := by simpa using ht
              exact absurd hk1.symm hpt
          · obtain rfl : p = (k, ⟨k, v, t⟩) := by simpa using h2
            exact ⟨rfl, List.mem_cons_self _ _⟩
        · intro e he
          rcases List.mem_cons.mp he with h1 | h2
          · subst h1
            rw [show (ttlEntry.mk k v t).key = k from rfl, mapGet_mapSet,
              if_pos rfl]
          · have hedl : e.key ∈ llKeys c.ll.dropLast :=
              List.mem_map_of_mem ttlEntry.key h2
            have hek : e.key ≠ k := fun hh => hkdl (hh ▸ hedl)
            have het : e.key ≠ tail.key := fun hh => hdln.2 (hh ▸ hedl)
            have hell : e ∈ c.ll := by
              rw [← hsplit]
              exact List.mem_append_left _ h2
            rw [mapGet_mapSet, if_neg hek, mapGet_mapDelete, if_neg het]
            exact hll e hell
    · rw [if_neg hcap] at h
      obtain rfl : _ = c' := by injection h
      refine ⟨?_, ?_, ?_, ?_, ?_, ?_⟩
      · simp only [llKeys, List.map_cons, List.nodup_cons]
        exact ⟨hkll, hlln⟩
      · exact keysOf_mapSet_nodup hitn
      · simp only [mapSet, hdel, List.length_append, List.length_cons,
          List.length_nil]
        omega
      · simp only [mapSet, hdel, List.length_append, List.length_cons,
          List.length_nil]
        omega
      · intro p hp
        simp only [mapSet, hdel] at hp
        rcases List.mem_append.mp hp with h1 | h2
        · obtain ⟨hk1, hk2⟩ := hitems p h1
          exact ⟨hk1, List.mem_cons_of_mem _ hk2⟩
        · obtain rfl : p = (k, ⟨k, v, t⟩) := by simpa using h2
          exact ⟨rfl, List.mem_cons_self _ _⟩
      · intro e he
        rcases List.mem_cons.mp he with h1 | h2
        · subst h1
          rw [show (ttlEntry.mk k v t).key = k from rfl, mapGet_mapSet,
            if_pos rfl]
        · have hek : e.key ≠ k :=
            fun hh => hkll (hh ▸ List.mem_map_of_mem ttlEntry.key h2)
          rw [mapGet_mapSet, if_neg hek]
          exact hll e h2

/-- `Set` preserves well-formedness when it succeeds. -/
theorem WF_Set {K V : Type} [DecidableEq K] {c : LRUWithTTL K V}
    (hwf : WF c) (now : Int) (k : K) (v : V) {c' : LRUWithTTL K V}
    (h : c.Set now k v = .ok c') : WF c' :=
  WF_setWithTTLInternal hwf k v _ h

/-- `SetWithTTL` preserves well-formedness when it succeeds. -/
theorem WF_SetWithTTL {K V : Type} [DecidableEq K] {c : LRUWithTTL K V}
    (hwf : WF c) (now : Int) (k : K) (v : V) (ttl : Int)
    {c' : LRUWithTTL K V} (h : c.SetWithTTL now k v ttl = .ok c') :
    WF c' := by
  unfold LRUWithTTL.SetWithTTL at h
  split at h
  · exact WF_setWithTTLInternal hwf k v _ h
  · split at h
    · exact WF_setWithTTLInternal hwf k v _ h
    · exact absurd h (by simp)

end WFSet

/-! ## Sweeper-pass preservation -/

section WFCleanup

variable {K V : Type} [DecidableEq K]

theorem cleanupGo_fst (now : Int) (pend kept : List (ttlEntry K V))
    (its : List (K × ttlEntry K V)) :
    (cleanupGo now pend kept its).1 =
      kept.reverse ++ pend.filter (fun e => ! isExpired e now) := by
  induction pend generalizing kept its with
  | nil => simp [cleanupGo]
  | cons e rest ih =>
    by_cases hexp : isExpired e now
    · simp [cleanupGo, hexp, ih]
    · simp [cleanupGo, hexp, ih]

theorem cleanupGo_snd (now : Int) (pend kept : List (ttlEntry K V))
    (its : List (K × ttlEntry K V)) :
    (cleanupGo now pend kept its).2 =
      (pend.filter (fun e => isExpired e now)).foldl
        (fun m e => mapDelete m e.key) its := by
  induction pend generalizing kept its with
  | nil => simp [cleanupGo]
  | cons e rest ih =>
    by_cases hexp : isExpired e now
    · simp [cleanupGo, hexp, ih]
    · simp [cleanupGo, hexp, ih]

theorem length_filter_split {A : Type} (p : A → Bool) (l : List A) :
    (l.filter p).length + (l.filter (fun a => ! p a)).length = l.length := by
  induction l with
  | nil => simp
  | cons a r ih =>
    by_cases h : p a
    · simp [List.filter_cons, h]
      omega
    · simp [List.filter_cons, h]
      omega

theorem foldl_mapDelete_spec {A : Type} (ds : List (ttlEntry K A))
    (its : List (K × ttlEntry K A)) (hnd : (llKeys ds).Nodup)
    (hnm : (keysOf its).Nodup)
    (hmem : ∀ d ∈ ds, mapGet its d.key = some d) :
    (ds.foldl (fun m e => mapDelete m e.key) its).length + ds.length
        = its.length ∧
    (∀ k, mapGet (ds.foldl (fun m e => mapDelete m e.key) its) k =
      if k ∈ llKeys ds then none else mapGet its k) ∧
    List.Sublist (ds.foldl (fun m e => mapDelete m e.key) its) its := by
  induction ds generalizing its with
  | nil =>
    refine ⟨by simp, ?_, by simp⟩
    intro k
    simp [llKeys]
  | cons d rest ih =>
    have hnd1 : d.key ∉ llKeys rest ∧ (llKeys rest).Nodup := by
      simpa [llKeys] using hnd
    have hd : mapGet its d.key = some d :=
      hmem d (List.mem_cons_self _ _)
    have hlen := mapDelete_length hnm hd
    have hnm' : (keysOf (mapDelete its d.key)).Nodup :=
      hnm.sublist (keysOf_mapDelete_sublist _ _)
    have hmem' : ∀ e ∈ rest, mapGet (mapDelete its d.key) e.key = some e := by
      intro e he
      have hne : e.key ≠ d.key := by
        intro hh
        exact hnd1.1 (hh ▸ List.mem_map_of_mem ttlEntry.key he)
      rw [mapGet_mapDelete, if_neg hne]
      exact hmem e (List.mem_cons_of_mem _ he)
    obtain ⟨ih1, ih2, ih3⟩ := ih (mapDelete its d.key) hnd1.2 hnm' hmem'
    refine ⟨?_, ?_, ?_⟩
    · simp only [List.foldl_cons, List.length_cons]
      omega
    · intro k
      simp only [List.foldl_cons, ih2 k]
      have hcons : llKeys (d :: rest) = d.key :: llKeys rest := rfl
      rw [hcons]
      by_cases hk : k ∈ llKeys rest
      · rw [if_pos hk, if_pos (List.mem_cons_of_mem _ hk)]
      · by_cases hkd : k = d.key
        · rw [if_neg hk, if_pos (List.mem_cons.mpr (Or.inl hkd)),
            mapGet_mapDelete, if_pos hkd]
        · have hno : k ∉ d.key :: llKeys rest := by
            intro hmem
            rcases List.mem_cons.mp hmem with h | h
            · exact hkd h
            · exact hk h
          rw [if_neg hk, if_neg hno, mapGet_mapDelete, if_neg hkd]
    · simp only [List.foldl_cons]
      exact ih3.trans (mapDelete_sublist its d.key)

omit [DecidableEq K] in
theorem eq_of_mem_nodup_llKeys {ll : List (ttlEntry K V)}
    (hn : (llKeys ll).Nodup) {e d : ttlEntry K V} (he : e ∈ ll)
    (hd : d ∈ ll) (hk : e.key = d.key) : e = d :=
  List.inj_on_of_nodup_map hn he hd hk

/-- A sweeper pass preserves well-formedness. -/
theorem WF_cleanupExpired {c : LRUWithTTL K V} (hwf : WF c) (now : Int) :
    WF (c.cleanupExpired now) := by
  obtain ⟨hlln, hitn, hsz, hle, hitems, hll⟩ := hwf
  have hll' : (c.cleanupExpired now).ll =
      c.ll.filter (fun e => ! isExpired e now) := by
    unfold LRUWithTTL.cleanupExpired
    simp [cleanupGo_fst]
  have hits' : (c.cleanupExpired now).items =
      (c.ll.filter (fun e => isExpired e now)).foldl
        (fun m e => mapDelete m e.key) c.items := by
    unfold LRUWithTTL.cleanupExpired
    simp [cleanupGo_snd]
  have hcap' : (c.cleanupExpired now).capacity = c.capacity := rfl
  set ds := c.ll.filter (fun e => isExpired e now) with hds
  have hdssub : List.Sublist ds c.ll := List.filter_sublist c.ll
  have hdsn : (llKeys ds).Nodup := hlln.sublist (hdssub.map ttlEntry.key)
  have hdsm : ∀ d ∈ ds, mapGet c.items d.key = some d := by
    intro d hd
    exact hll d (hdssub.subset hd)
  obtain ⟨hf1, hf2, hf3⟩ := foldl_mapDelete_spec ds c.items hdsn hitn hdsm
  have hsplitlen : (c.ll.filter (fun e => ! isExpired e now)).length
      + ds.length = c.ll.length := by
    rw [hds]
    rw [Nat.add_comm]
    exact length_filter_split (fun e => isExpired e now) c.ll
  refine ⟨?_, ?_, ?_, ?_, ?_, ?_⟩
  · rw [hll']
    exact hlln.sublist ((List.filter_sublist c.ll).map ttlEntry.key)
  · rw [hits']
    exact hitn.sublist (hf3.map Prod.fst)
  · rw [hits', hll']
    omega
  · rw [hits', hcap']
    omega
  · intro p hp
    rw [hits'] at hp
    have hpm : p ∈ c.items := hf3.subset hp
    obtain ⟨hk1, hk2⟩ := hitems p hpm
    refine ⟨hk1, ?_⟩
    rw [hll']
    rw [List.mem_filter]
    refine ⟨hk2, ?_⟩
    by_cases hexp : isExpired p.2 now
    · exfalso
      have hpds : p.2 ∈ ds := by
        rw [hds, List.mem_filter]
        exact ⟨hk2, by simpa using hexp⟩
      have hkeyds : p.2.key ∈ llKeys ds := List.mem_map_of_mem _ hpds
      have hnone := hf2 p.1
      rw [if_pos (hk1 ▸ hkeyds)] at hnone
      have hnm2 : (keysOf (ds.foldl (fun m e => mapDelete m e.key)
          c.items)).Nodup := hitn.sublist (hf3.map Prod.fst)
      have : mapGet (ds.foldl (fun m e => mapDelete m e.key) c.items) p.1
          = some p.2 := mapGet_of_mem_nodup hnm2 (by
            obtain ⟨a, b⟩ := p
            exact hp)
      rw [this] at hnone
      exact Option.noConfusion hnone
    · simpa using hexp
  · intro e he
    rw [hll', List.mem_filter] at he
    obtain ⟨hel, hexp⟩ := he
    rw [hits', hf2 e.key]
    have hnotds : e.key ∉ llKeys ds := by
      intro hmem
      obtain ⟨d, hd, hdk⟩ := by
        simpa only [llKeys, List.mem_map] using hmem
      have : d = e := eq_of_mem_nodup_llKeys hlln (hdssub.subset hd) hel hdk
      subst this
      rw [hds, List.mem_filter] at hd
      simp only [hd.2] at hexp
      exact Bool.noConfusion hexp
    rw [if_neg hnotds]
    exact hll e hel

end WFCleanup

/-! ## Construction -/

section WFCtor

variable {K V : Type} [DecidableEq K]

theorem applyLRUOption_plain {c c1 : LRUWithTTL K V} {o : LRUOption K V}
    (ho : o.isItemsMap = false) (h : applyLRUOption c o = .ok c1) :
    c1.items = c.items ∧ c1.ll = c.ll ∧
      (c1.capacity = c.capacity ∨ 0 < c1.capacity) := by
  cases o with
  | withCapacity n =>
    by_cases hn : n > 0
    · have heq : ({ c with capacity := n } : LRUWithTTL K V) = c1 := by
        simpa [applyLRUOption, hn] using h
      subst heq
      exact ⟨rfl, rfl, Or.inr hn⟩
    · simp [applyLRUOption, hn] at h
  | withDefaultTTL t =>
    by_cases ht : t ≥ 0
    · have heq : ({ c with defaultTTL := t * nsPerSec } : LRUWithTTL K V)
          = c1 := by
        simpa [applyLRUOption, ht] using h
      subst heq
      exact ⟨rfl, rfl, Or.inl rfl⟩
    · simp [applyLRUOption, ht] at h
  | withCleanupInterval t =>
    by_cases ht : t > 0
    · have heq : ({ c with cleanupInterval := t * nsPerSec } : LRUWithTTL K V)
          = c1 := by
        simpa [applyLRUOption, ht] using h
      subst heq
      exact ⟨rfl, rfl, Or.inl rfl⟩
    · simp [applyLRUOption, ht] at h
  | withCleanupStart b =>
    have heq : ({ c with cleanupRunning := b } : LRUWithTTL K V) = c1 := by
      simpa [applyLRUOption] using h
    subst heq
    exact ⟨rfl, rfl, Or.inl rfl⟩
  | withItemsMap m =>
    exact absurd ho (by simp [LRUOption.isItemsMap])

theorem foldlM_applyLRUOption_plain :
    ∀ (opts : List (LRUOption K V)) (c0 : LRUWithTTL K V),
    (∀ o ∈ opts, o.isItemsMap = false) →
    c0.items = [] → c0.ll = [] → 0 < c0.capacity →
    ∀ {c : LRUWithTTL K V}, opts.foldlM applyLRUOption c0 = .ok c →
    c.items = [] ∧ c.ll = [] ∧ 0 < c.capacity := by
  intro opts
  induction opts with
  | nil =>
    intro c0 _ h1 h2 h3 c h
    obtain rfl : c0 = c := by
      simpa [List.foldlM, pure, Except.pure] using h
    exact ⟨h1, h2, h3⟩
  | cons o rest ih =>
    intro c0 hno h1 h2 h3 c h
    rw [List.foldlM_cons] at h
    cases happ : applyLRUOption c0 o with
    | error e =>
      rw [happ] at h
      exact absurd h (by simp [Bind.bind, Except.bind])
    | ok c1 =>
      rw [happ] at h
      have h' : rest.foldlM applyLRUOption c1 = .ok c := by
        simpa [Bind.bind, Except.bind] using h
      have hrest : ∀ x ∈ rest, x.isItemsMap = false :=
        fun x hx => hno x (List.mem_cons_of_mem _ hx)
      obtain ⟨hi, hl, hcap⟩ :=
        applyLRUOption_plain (hno o (List.mem_cons_self _ _)) happ
      have hc : 0 < c1.capacity := by
        rcases hcap with hcc | hcc
        · rw [hcc]; exact h3
        · exact hcc
      exact ih c1 hrest (hi.trans h1) (hl.trans h2) hc h'

/-- A cache constructed without the items-map option is well formed (and
empty). -/
theorem NewLRUTTL_WF {opts : List (LRUOption K V)} {c : LRUWithTTL K V}
    (hno : ∀ o ∈ opts, o.isItemsMap = false)
    (h : NewLRUTTL opts = .ok c) : WF c := by
  unfold NewLRUTTL at h
  cases hfold : opts.foldlM applyLRUOption (defaultLRU K V) with
  | error e =>
    rw [hfold] at h
    exact absurd h (by simp)
  | ok c1 =>
    rw [hfold] at h
    dsimp only at h
    have hc1 : c1.items = [] ∧ c1.ll = [] ∧ 0 < c1.capacity :=
      foldlM_applyLRUOption_plain opts (defaultLRU K V) hno rfl rfl
        (by norm_num [defaultLRU]) hfold
    have hcc : c1 = c := by
      by_cases hr : c1.cleanupRunning = true
      · rw [if_pos hr] at h
        by_cases hi : c1.cleanupInterval ≤ 0
        · rw [if_pos hi] at h
          exact absurd h (by simp)
        · rw [if_neg hi] at h
          injection h
      · rw [if_neg hr] at h
        injection h
    subst hcc
    obtain ⟨h1, h2, h3⟩ := hc1
    refine ⟨?_, ?_, ?_, ?_, ?_, ?_⟩
    · rw [h2]; exact List.nodup_nil
    · rw [h1]; exact List.nodup_nil
    · rw [h1, h2]
      rfl
    · rw [h1]
      simpa using le_of_lt h3
    · intro p hp
      rw [h1] at hp
      exact absurd hp (List.not_mem_nil p)
    · intro e he
      rw [h2] at he
      exact absurd he (List.not_mem_nil e)

end WFCtor

/-- Well-formedness implies the invariant exactly as the spec states it. -/
theorem WF.claimInv {K V : Type} [DecidableEq K] {c : LRUWithTTL K V}
    (hwf : WF c) : cacheClaimInv c := by
  obtain ⟨hlln, hitn, hsz, hle, hitems, hll⟩ := hwf
  refine ⟨hsz, ?_, hle⟩
  intro p hp
  obtain ⟨hk1, hk2⟩ := hitems p hp
  exact ⟨hk1, hk2, countP_key_eq_one hlln hk2 hk1⟩

/-! ## Header lemmas -/

section HeaderLemmas

theorem mem_hDel {h : Header} {key : String} {p : String × List String} :
    p ∈ hDel h key ↔ p ∈ h ∧ (lowerStr p.1) ≠ (lowerStr key) := by
  simp [hDel, List.mem_filter]

theorem mem_foldl_hDel {names : List String} :
    ∀ {h : Header} {p : String × List String},
    p ∈ names.foldl hDel h ↔
      p ∈ h ∧ ∀ n ∈ names, (lowerStr p.1) ≠ (lowerStr n) := by
  induction names with
  | nil => simp
  | cons n rest ih =>
    intro h p
    rw [List.foldl_cons, ih, mem_hDel]
    constructor
    · rintro ⟨⟨h1, h2⟩, h3⟩
      refine ⟨h1, ?_⟩
      intro x hx
      rcases List.mem_cons.mp hx with rfl | hxr
      · exact h2
      · exact h3 x hxr
    · rintro ⟨h1, h2⟩
      exact ⟨⟨h1, h2 n (List.mem_cons_self _ _)⟩,
        fun x hx => h2 x (List.mem_cons_of_mem _ hx)⟩

theorem mem_removeHopByHopHeaders {h : Header} {p : String × List String} :
    p ∈ removeHopByHopHeaders h ↔
      p ∈ h ∧ ∀ n ∈ hopByHopHeaders, (lowerStr p.1) ≠ (lowerStr n) :=
  mem_foldl_hDel

theorem hopFree_removeHopByHopHeaders (h : Header) :
    hopFree (removeHopByHopHeaders h) := by
  intro p hp
  obtain ⟨-, hne⟩ := mem_removeHopByHopHeaders.mp hp
  intro hmem
  obtain ⟨n, hn, hnl⟩ := List.mem_map.mp hmem
  exact hne n hn hnl.symm

theorem hopFree_hSet {h : Header} {k v : String} (hf : hopFree h)
    (hk : (lowerStr k) ∉ hopByHopHeaders.map lowerStr) :
    hopFree (hSet h k v) := by
  intro p hp
  rcases List.mem_append.mp hp with h1 | h2
  · exact hf p ((mem_hDel.mp h1).1)
  · obtain rfl : p = (k, [v]) := by simpa using h2
    exact hk

theorem hopFree_hAdd {h : Header} {k v : String} (hf : hopFree h)
    (hk : (lowerStr k) ∉ hopByHopHeaders.map lowerStr) :
    hopFree (hAdd h k v) := by
  unfold hAdd
  split
  · intro p hp
    obtain ⟨q, hq, hqe⟩ := List.mem_map.mp hp
    by_cases hmatch : (lowerStr q.1) = (lowerStr k)
    · rw [if_pos hmatch] at hqe
      rw [← hqe]
      exact hf q hq
    · rw [if_neg hmatch] at hqe
      rw [← hqe]
      exact hf q hq
  · intro p hp
    rcases List.mem_append.mp hp with h1 | h2
    · exact hf p h1
    · obtain rfl : p = (k, [v]) := by simpa using h2
      exact hk

theorem hopFree_foldl_hAdd_values {vs : List String} :
    ∀ {h : Header} {k : String}, hopFree h →
    (lowerStr k) ∉ hopByHopHeaders.map lowerStr →
    hopFree (vs.foldl (fun d v => hAdd d k v) h) := by
  induction vs with
  | nil => intro h k hf _; exact hf
  | cons v rest ih =>
    intro h k hf hk
    rw [List.foldl_cons]
    exact ih (hopFree_hAdd hf hk) hk

theorem hopFree_copyHeaders {src : List (String × List String)} :
    ∀ {dst : Header}, hopFree dst → hopFree src →
    hopFree (copyHeaders dst src) := by
  induction src with
  | nil => intro dst hf _; exact hf
  | cons p rest ih =>
    intro dst hf hs
    rw [copyHeaders, List.foldl_cons]
    have hp : (lowerStr p.1) ∉ hopByHopHeaders.map lowerStr :=
      hs p (List.mem_cons_self _ _)
    have hs' : hopFree rest := fun q hq => hs q (List.mem_cons_of_mem _ hq)
    exact ih (hopFree_foldl_hAdd_values hf hp) hs'

theorem hGet_append_right {h1 h2 : Header} {key : String}
    (hnone : ∀ p ∈ h1, (lowerStr p.1) ≠ (lowerStr key)) :
    hGet (h1 ++ h2) key = hGet h2 key := by
  induction h1 with
  | nil => rfl
  | cons p r ih =>
    rw [List.cons_append, hGet,
      if_neg (hnone p (List.mem_cons_self _ _))]
    exact ih (fun q hq => hnone q (List.mem_cons_of_mem _ hq))

theorem hGet_hSet_eq {h : Header} {k v key : String}
    (hk : (lowerStr key) = (lowerStr k)) : hGet (hSet h k v) key = v := by
  unfold hSet
  rw [hGet_append_right (fun p hp => ?_)]
  · rw [hGet, if_pos (by rw [hk])]
    rfl
  · intro hcontra
    exact (mem_hDel.mp hp).2 (hcontra.trans hk)

theorem hGet_hSet_ne {h : Header} {k v key : String}
    (hk : (lowerStr key) ≠ (lowerStr k)) : hGet (hSet h k v) key = hGet h key := by
  unfold hSet
  induction h with
  | nil =>
    have hstep : hGet (hDel ([] : Header) k ++ [(k, [v])]) key =
        if (lowerStr k) = (lowerStr key) then firstValue [v] else "" := rfl
    rw [hstep, if_neg (fun hcontra => hk hcontra.symm)]
    rfl
  | cons p r ih =>
    by_cases hpk : (lowerStr p.1) = (lowerStr k)
    · have hdrop : hDel (p :: r) k = hDel r k := by
        simp [hDel, List.filter_cons, hpk]
      rw [hdrop]
      have hpkey : (lowerStr p.1) ≠ (lowerStr key) := by
        rw [hpk]
        intro hcontra
        exact hk hcontra.symm
      rw [hGet, if_neg hpkey]
      exact ih
    · have hkeep : hDel (p :: r) k = p :: hDel r k := by
        simp [hDel, List.filter_cons, hpk]
      rw [hkeep, List.cons_append, hGet, hGet]
      by_cases hmatch : (lowerStr p.1) = (lowerStr key)
      · rw [if_pos hmatch, if_pos hmatch]
      · rw [if_neg hmatch, if_neg hmatch]
        exact ih

end HeaderLemmas

/-! ## Hop-by-hop freedom through the pipeline -/

section HopFreePipeline

theorem hopFree_nil : hopFree [] := by
  intro p hp
  exact absurd hp (List.not_mem_nil p)

theorem hopFree_buildUpstreamRequest (p : Proxy) (r : Request) :
    hopFree (buildUpstreamRequest p r).header := by
  have hxfh : lowerStr "X-Forwarded-Host" ∉
      hopByHopHeaders.map lowerStr := by decide
  have hxfp : lowerStr "X-Forwarded-Proto" ∉
      hopByHopHeaders.map lowerStr := by decide
  have hxff : lowerStr "X-Forwarded-For" ∉
      hopByHopHeaders.map lowerStr := by decide
  unfold buildUpstreamRequest
  cases hs : splitHostPortHost r.remoteAddr with
  | none =>
    simpa [hs] using
      hopFree_hSet (hopFree_hSet (hopFree_removeHopByHopHeaders r.header)
        hxfh) hxfp
  | some s =>
    simpa [hs] using
      hopFree_hSet (hopFree_hSet
        (hopFree_hSet (hopFree_removeHopByHopHeaders r.header) hxfh)
        hxfp) hxff

theorem cacheHopFree_Get {c : LRUWithTTL String CachedResponse}
    (hcf : cacheHopFree c) (now : Int) (k : String) :
    cacheHopFree (c.Get now k).2 := by
  unfold LRUWithTTL.Get
  cases h : mapGet c.items k with
  | none => exact hcf
  | some entry =>
    by_cases hexp : isExpired entry now
    · have htarget : cacheHopFree
          { c with ll := llRemoveKey c.ll k, items := mapDelete c.items k } :=
        ⟨fun e he => hcf.1 e (mem_of_mem_llRemoveKey he),
         fun p hp => hcf.2 p (mem_mapDelete.mp hp).1⟩
      simpa [hexp] using htarget
    · have htarget : cacheHopFree
          { c with ll := entry :: llRemoveKey c.ll k } := by
        refine ⟨?_, hcf.2⟩
        intro e he
        rcases List.mem_cons.mp he with h1 | h2
        · rw [h1]
          exact hcf.2 (k, entry) (mapGet_mem h)
        · exact hcf.1 e (mem_of_mem_llRemoveKey h2)
      simpa [hexp] using htarget

theorem cacheHopFree_setWithTTLInternal
    {c c' : LRUWithTTL String CachedResponse} {k : String}
    {v : CachedResponse} {t : Int} (hcf : cacheHopFree c)
    (hv : hopFree v.header) (h : c.setWithTTLInternal k v t = .ok c') :
    cacheHopFree c' := by
  unfold LRUWithTTL.setWithTTLInternal at h
  cases hget : mapGet c.items k with
  | some old =>
    rw [hget] at h
    obtain rfl : _ = c' := by injection h
    constructor
    · intro e he
      rcases List.mem_cons.mp he with h1 | h2
      · subst h1
        exact hv
      · exact hcf.1 e (mem_of_mem_llRemoveKey h2)
    · intro p hp
      rcases List.mem_append.mp hp with h1 | h2
      · exact hcf.2 p (mem_mapDelete.mp h1).1
      · obtain rfl : p = (k, ⟨k, v, t⟩) := by simpa using h2
        exact hv
  | none =>
    rw [hget] at h
    by_cases hcap : (c.items.length : Int) ≥ c.capacity
    · rw [if_pos hcap] at h
      cases hlast : c.ll.getLast? with
      | none =>
        rw [hlast] at h
        exact absurd h (by simp)
      | some tail =>
        rw [hlast] at h
        obtain rfl : _ = c' := by injection h
        constructor
        · intro e he
          rcases List.mem_cons.mp he with h1 | h2
          · subst h1
            exact hv
          · exact hcf.1 e (List.dropLast_sublist c.ll |>.subset h2)
        · intro p hp
          rcases List.mem_append.mp hp with h1 | h2
          · exact hcf.2 p
              (mem_mapDelete.mp (mem_mapDelete.mp h1).1).1
          · obtain rfl : p = (k, ⟨k, v, t⟩) := by simpa using h2
            exact hv
    · rw [if_neg hcap] at h
      obtain rfl : _ = c' := by injection h
      constructor
      · intro e he
        rcases List.mem_cons.mp he with h1 | h2
        · subst h1
          exact hv
        · exact hcf.1 e h2
      · intro p hp
        rcases List.mem_append.mp hp with h1 | h2
        · exact hcf.2 p (mem_mapDelete.mp h1).1
        · obtain rfl : p = (k, ⟨k, v, t⟩) := by simpa using h2
          exact hv

theorem cacheHopFree_Set {c c' : LRUWithTTL String CachedResponse}
    {k : String} {v : CachedResponse} {now : Int} (hcf : cacheHopFree c)
    (hv : hopFree v.header) (h : c.Set now k v = .ok c') :
    cacheHopFree c' :=
  cacheHopFree_setWithTTLInternal hcf hv h

theorem cacheHopFree_SetWithTTL {c c' : LRUWithTTL String CachedResponse}
    {k : String} {v : CachedResponse} {now ttl : Int}
    (hcf : cacheHopFree c) (hv : hopFree v.header)
    (h : c.SetWithTTL now k v ttl = .ok c') : cacheHopFree c' := by
  unfold LRUWithTTL.SetWithTTL at h
  split at h
  · exact cacheHopFree_setWithTTLInternal hcf hv h
  · split at h
    · exact cacheHopFree_setWithTTLInternal hcf hv h
    · exact absurd h (by simp)

end HopFreePipeline

/-! ## Pipeline helper lemmas -/

section PipelineLemmas

theorem buildUpstreamRequest_header (p : Proxy) (r : Request) :
    (buildUpstreamRequest p r).header =
      match splitHostPortHost r.remoteAddr with
      | none =>
          hSet (hSet (removeHopByHopHeaders r.header) "X-Forwarded-Host"
            r.host) "X-Forwarded-Proto" (if r.tls then "https" else "http")
      | some s =>
          hSet (hSet (hSet (removeHopByHopHeaders r.header)
            "X-Forwarded-Host" r.host) "X-Forwarded-Proto"
            (if r.tls then "https" else "http")) "X-Forwarded-For" s := by
  unfold buildUpstreamRequest
  cases hs : splitHostPortHost r.remoteAddr <;> simp [hs]

theorem buildUpstreamRequest_xfh (p : Proxy) (r : Request) :
    hGet (buildUpstreamRequest p r).header "X-Forwarded-Host" = r.host := by
  rw [buildUpstreamRequest_header]
  cases hs : splitHostPortHost r.remoteAddr
  · exact (hGet_hSet_ne (by decide)).trans (hGet_hSet_eq rfl)
  · exact (hGet_hSet_ne (by decide)).trans
      ((hGet_hSet_ne (by decide)).trans (hGet_hSet_eq rfl))

theorem buildUpstreamRequest_xfp (p : Proxy) (r : Request) :
    hGet (buildUpstreamRequest p r).header "X-Forwarded-Proto" =
      (if r.tls then "https" else "http") := by
  rw [buildUpstreamRequest_header]
  cases hs : splitHostPortHost r.remoteAddr
  · exact hGet_hSet_eq rfl
  · exact (hGet_hSet_ne (by decide)).trans (hGet_hSet_eq rfl)

theorem buildUpstreamRequest_xff {p : Proxy} {r : Request} {s : String}
    (hs : splitHostPortHost r.remoteAddr = some s) :
    hGet (buildUpstreamRequest p r).header "X-Forwarded-For" = s := by
  rw [buildUpstreamRequest_header, hs]
  exact hGet_hSet_eq rfl

theorem mapGet_setWithTTLInternal {K V : Type} [DecidableEq K]
    {c c' : LRUWithTTL K V} {k : K} {v : V} {t : Int}
    (h : c.setWithTTLInternal k v t = .ok c') :
    mapGet c'.items k = some ⟨k, v, t⟩ := by
  unfold LRUWithTTL.setWithTTLInternal at h
  cases hget : mapGet c.items k with
  | some old =>
    rw [hget] at h
    obtain rfl : _ = c' := by injection h
    rw [mapGet_mapSet, if_pos rfl]
  | none =>
    rw [hget] at h
    by_cases hcap : (c.items.length : Int) ≥ c.capacity
    · rw [if_pos hcap] at h
      cases hlast : c.ll.getLast? with
      | none =>
        rw [hlast] at h
        exact absurd h (by simp)
      | some tail =>
        rw [hlast] at h
        obtain rfl : _ = c' := by injection h
        rw [mapGet_mapSet, if_pos rfl]
    · rw [if_neg hcap] at h
      obtain rfl : _ = c' := by injection h
      rw [mapGet_mapSet, if_pos rfl]

theorem serveMiss_transportErr {p : Proxy}
    {cacheOpt : Option (LRUWithTTL String CachedResponse)} {now : Int}
    {r : Request} {isCacheable : Bool} {uniqueKey : String}
    {transport : Request → TransportResult}
    (htr : transport (buildUpstreamRequest p r) = .transportErr) :
    serveMiss p cacheOpt now r isCacheable uniqueKey transport =
      .ok { status := 502, clientHeader := [], body := "upstream error",
            cacheAfter := cacheOpt,
            outbound := some (buildUpstreamRequest p r) } := by
  unfold serveMiss
  dsimp only
  rw [htr]

theorem serveMiss_bodyErr {p : Proxy}
    {cacheOpt : Option (LRUWithTTL String CachedResponse)} {now : Int}
    {r : Request} {isCacheable : Bool} {uniqueKey : String}
    {transport : Request → TransportResult} {resp : UpstreamResponse}
    (htr : transport (buildUpstreamRequest p r) = .ok resp)
    (hbody : resp.bodyRead = .error ()) :
    serveMiss p cacheOpt now r isCacheable uniqueKey transport =
      .ok { status := 500, clientHeader := [],
            body := "error reading response",
            cacheAfter := cacheOpt,
            outbound := some (buildUpstreamRequest p r) } := by
  unfold serveMiss
  dsimp only
  rw [htr]
  dsimp only
  rw [hbody]

theorem Get_hit_entry {K V : Type} [DecidableEq K] {c : LRUWithTTL K V}
    {now : Int} {k : K} {v : V} (h : (c.Get now k).1 = some v) :
    ∃ e, mapGet c.items k = some e ∧ e.value = v ∧
      isExpired e now = false := by
  unfold LRUWithTTL.Get at h
  cases hget : mapGet c.items k with
  | none =>
    rw [hget] at h
    exact absurd h (by simp)
  | some e =>
    rw [hget] at h
    dsimp only at h
    by_cases hexp : isExpired e now
    · rw [if_pos hexp] at h
      exact absurd h (by simp)
    · rw [if_neg hexp] at h
      have hv : e.value = v := by
        simpa using h
      exact ⟨e, rfl, hv, by simpa using hexp⟩

theorem storeInCache_hopFree
    {cacheOpt : Option (LRUWithTTL String CachedResponse)}
    {isCacheable : Bool} {now : Int} {uniqueKey : String}
    {cachedResp : CachedResponse} {ttl : Int}
    (hcf : ∀ c0, cacheOpt = some c0 → cacheHopFree c0)
    (hv : hopFree cachedResp.header) :
    ∀ o, storeInCache cacheOpt isCacheable now uniqueKey cachedResp ttl
        = .ok o → ∀ c', o = some c' → cacheHopFree c' := by
  intro o ho c' hc'
  unfold storeInCache at ho
  by_cases hic : isCacheable = true
  · rw [if_pos hic] at ho
    cases cacheOpt with
    | none =>
      dsimp only at ho
      obtain rfl : (none : Option (LRUWithTTL String CachedResponse)) = o := by
        injection ho
      exact absurd hc' (by simp)
    | some c =>
      dsimp only at ho
      cases hst : (if ttl > 0 then c.SetWithTTL now uniqueKey cachedResp ttl
          else c.Set now uniqueKey cachedResp) with
      | error e =>
        rw [hst] at ho
        exact absurd ho (by simp)
      | ok c2 =>
        rw [hst] at ho
        obtain rfl : some c2 = o := by injection ho
        obtain rfl : c2 = c' := by injection hc'
        by_cases httl : ttl > 0
        · rw [if_pos httl] at hst
          exact cacheHopFree_SetWithTTL (hcf c rfl) hv hst
        · rw [if_neg httl] at hst
          exact cacheHopFree_Set (hcf c rfl) hv hst
  · rw [if_neg hic] at ho
    obtain rfl : cacheOpt = o := by injection ho
    exact hcf c' hc'

theorem serveMiss_hopFree {p : Proxy}
    {cacheOpt : Option (LRUWithTTL String CachedResponse)} {now : Int}
    {r : Request} {isCacheable : Bool} {uniqueKey : String}
    {transport : Request → TransportResult}
    (hcf : ∀ c0, cacheOpt = some c0 → cacheHopFree c0) :
    ∀ res, serveMiss p cacheOpt now r isCacheable uniqueKey transport
        = .ok res →
      (∀ outReq, res.outbound = some outReq → hopFree outReq.header) ∧
      hopFree res.clientHeader ∧
      (∀ c', res.cacheAfter = some c' → cacheHopFree c') := by
  intro res hres
  unfold serveMiss at hres
  dsimp only at hres
  cases htr : transport (buildUpstreamRequest p r) with
  | transportErr =>
    rw [htr] at hres
    obtain rfl : _ = res := by injection hres
    refine ⟨?_, hopFree_nil, ?_⟩
    · intro q hq
      obtain rfl : buildUpstreamRequest p r = q := by injection hq
      exact hopFree_buildUpstreamRequest p r
    · intro c' hc'
      exact hcf c' hc'
  | ok resp =>
    rw [htr] at hres
    dsimp only at hres
    cases hbody : resp.bodyRead with
    | error u =>
      rw [hbody] at hres
      obtain rfl : _ = res := by injection hres
      refine ⟨?_, hopFree_nil, ?_⟩
      · intro q hq
        obtain rfl : buildUpstreamRequest p r = q := by injection hq
        exact hopFree_buildUpstreamRequest p r
      · intro c' hc'
        exact hcf c' hc'
    | ok bodyBytes =>
      rw [hbody] at hres
      dsimp only at hres
      cases hst : storeInCache cacheOpt isCacheable now uniqueKey
          { status := resp.status, header := removeHopByHopHeaders resp.header,
            body := bodyBytes, cachedAt := now, expiresAt := 0 }
          (parseMaxAge (hGet (removeHopByHopHeaders resp.header)
            "Cache-Control")) with
      | error e =>
        rw [hst] at hres
        exact absurd hres (by simp)
      | ok cacheOpt2 =>
        rw [hst] at hres
        obtain rfl : _ = res := by injection hres
        refine ⟨?_, ?_, ?_⟩
        · intro q hq
          obtain rfl : buildUpstreamRequest p r = q := by injection hq
          exact hopFree_buildUpstreamRequest p r
        · exact hopFree_copyHeaders hopFree_nil
            (hopFree_removeHopByHopHeaders _)
        · intro c' hc'
          exact storeInCache_hopFree hcf
            (hopFree_removeHopByHopHeaders _) cacheOpt2 hst c' hc'

end PipelineLemmas

/-! ## Claim theorems -/

/-- Claim C1: for every key `k`, `Get` returns the stored value with a hit
exactly when `k` is present and its expiry is either the zero sentinel or
not in the past, and then the entry is promoted to the front (MRU) of the
recency list; when `k` is present but expired (`expiresAt` nonzero and
earlier than `now`), `Get` removes the entry from both the map and the
list and reports a miss. -/
theorem C1_get_contract {K V : Type} [DecidableEq K] (c : LRUWithTTL K V)
    (hwf : WF c) (now : Int) (k : K) :
    (mapGet c.items k = none → c.Get now k = (none, c)) ∧
    (∀ e, mapGet c.items k = some e →
      ((e.expiresAt = 0 ∨ ¬ e.expiresAt < now) →
        c.Get now k =
          (some e.value, { c with ll := e :: llRemoveKey c.ll k })) ∧
      (e.expiresAt ≠ 0 → e.expiresAt < now →
        (c.Get now k).1 = none ∧
        mapGet (c.Get now k).2.items k = none ∧
        ∀ e' ∈ (c.Get now k).2.ll, e'.key ≠ k)) := by
  constructor
  · intro h
    unfold LRUWithTTL.Get
    rw [h]
  · intro e he
    constructor
    · intro hlive
      have hexp : isExpired e now = false := by
        unfold isExpired
        rcases hlive with h0 | hnl
        · rw [if_pos h0]
        · by_cases h0 : e.expiresAt = 0
          · rw [if_pos h0]
          · rw [if_neg h0]
            simpa using hnl
      unfold LRUWithTTL.Get
      rw [he]
      dsimp only
      rw [if_neg (by simp [hexp])]
    · intro hnz hlt
      have hexp : isExpired e now = true := by
        unfold isExpired
        rw [if_neg hnz]
        simpa using hlt
      have hstate : c.Get now k =
          (none, { c with ll := llRemoveKey c.ll k,
                          items := mapDelete c.items k }) := by
        unfold LRUWithTTL.Get
        rw [he]
        dsimp only
        rw [if_pos (by simp [hexp])]
      refine ⟨by rw [hstate], ?_, ?_⟩
      · rw [hstate]
        exact (mapGet_mapDelete).trans (if_pos rfl)
      · rw [hstate]
        intro e' he'
        obtain ⟨hek, hel⟩ := hwf.entry_of_mapGet he
        exact key_ne_of_mem_llRemoveKey hwf.1 hel hek he'

/-- Witness for C1 at a concrete one-entry cache: the live entry hits and
is promoted. -/
theorem C1_witness :
    WF sampleCacheLive ∧
    sampleCacheLive.Get 10 "k" =
      (some 5, { sampleCacheLive with
        ll := ⟨"k", 5, 0⟩ :: llRemoveKey sampleCacheLive.ll "k" }) :=
  ⟨by decide,
   ((C1_get_contract sampleCacheLive (by decide) 10 "k").2
     ⟨"k", 5, 0⟩ rfl).1 (Or.inl rfl)⟩

/-- Claim C7, counterexample: on an entry expired at time 3 read at time
10, `Get` misses but `Get_Exclusive` (peek) hits — peek does not have the
same visibility as get, contrary to the claim. -/
theorem C7_counterexample :
    (sampleCacheExpired.Get 10 "k").1 = none ∧
    sampleCacheExpired.Get_Exclusive "k" = some 5 :=
  ⟨by decide, by decide⟩

/-- Claim C7, amended: `Get_Exclusive` (peek) reports a hit with the
stored value exactly when the key is present in the map, irrespective of
expiry; it never changes the cache state, while `Get` on a present
non-expired key promotes the entry to the front, leaving the map
unchanged. -/
theorem C7_peek_amended {K V : Type} [DecidableEq K] (c : LRUWithTTL K V)
    (now : Int) (k : K) :
    (∀ e, mapGet c.items k = some e →
      c.Get_Exclusive k = some e.value ∧
      (isExpired e now = false →
        (c.Get now k).1 = some e.value ∧
        (c.Get now k).2.ll.head? = some e ∧
        (c.Get now k).2.items = c.items)) ∧
    (mapGet c.items k = none →
      c.Get_Exclusive k = none ∧ c.Get now k = (none, c)) := by
  constructor
  · intro e he
    constructor
    · unfold LRUWithTTL.Get_Exclusive
      rw [he]
    · intro hexp
      have hstate : c.Get now k =
          (some e.value, { c with ll := e :: llRemoveKey c.ll k }) := by
        unfold LRUWithTTL.Get
        rw [he]
        dsimp only
        rw [if_neg (by simp [hexp])]
      rw [hstate]
      exact ⟨rfl, rfl, rfl⟩
  · intro h
    constructor
    · unfold LRUWithTTL.Get_Exclusive
      rw [h]
    · unfold LRUWithTTL.Get
      rw [h]

/-- Witness for the amended C7: peek hits the expired entry that get
would miss, and get promotes a live entry without touching the map. -/
theorem C7_witness :
    sampleCacheExpired.Get_Exclusive "k" = some 5 ∧
    (sampleCacheLive.Get 10 "k").1 = some 5 ∧
    (sampleCacheLive.Get 10 "k").2.items = sampleCacheLive.items :=
  ⟨(((C7_peek_amended sampleCacheExpired 10 "k").1 ⟨"k", 5, 3⟩ rfl).1),
   (((C7_peek_amended sampleCacheLive 10 "k").1 ⟨"k", 5, 0⟩ rfl).2
     (by decide)).1,
   (((C7_peek_amended sampleCacheLive 10 "k").1 ⟨"k", 5, 0⟩ rfl).2
     (by decide)).2.2⟩

/-- Claim C8: `SetWithTTL` with positive ttl stores absolute expiry
`now + ttl` seconds; with ttl zero it stores the never-expiring zero
sentinel, so a later `Get` at any time hits; with negative ttl it fails
with the invalid-argument panic before touching any state. -/
theorem C8_set_with_ttl {K V : Type} [DecidableEq K] (c : LRUWithTTL K V)
    (now : Int) (k : K) (v : V) (ttl : Int) :
    (ttl > 0 → ∀ c', c.SetWithTTL now k v ttl = .ok c' →
      mapGet c'.items k = some ⟨k, v, now + ttl * nsPerSec⟩) ∧
    (ttl = 0 → ∀ c', c.SetWithTTL now k v ttl = .ok c' →
      mapGet c'.items k = some ⟨k, v, 0⟩ ∧
      ∀ later, (c'.Get later k).1 = some v) ∧
    (ttl < 0 → c.SetWithTTL now k v ttl = .error .invalidTTL) := by
  refine ⟨?_, ?_, ?_⟩
  · intro httl c' h
    unfold LRUWithTTL.SetWithTTL at h
    rw [if_pos httl] at h
    exact mapGet_setWithTTLInternal h
  · intro httl c' h
    unfold LRUWithTTL.SetWithTTL at h
    rw [if_neg (by omega), if_pos httl] at h
    have hm := mapGet_setWithTTLInternal h
    refine ⟨hm, ?_⟩
    intro later
    unfold LRUWithTTL.Get
    rw [hm]
    dsimp only
    rw [if_neg (by simp [isExpired])]
  · intro httl
    unfold LRUWithTTL.SetWithTTL
    rw [if_neg (by omega), if_neg (by omega)]

/-- Witness for C8 on the default cache: store with ttl 5, store with ttl
0 followed by a get far in the future, and the rejected negative ttl. -/
theorem C8_witness :
    mapGet ({ defaultLRU String Nat with
        ll := [⟨"k", 7, 5 * nsPerSec⟩],
        items := [("k", ⟨"k", 7, 5 * nsPerSec⟩)] } :
        LRUWithTTL String Nat).items "k" = some ⟨"k", 7, 0 + 5 * nsPerSec⟩ ∧
    (mapGet ({ defaultLRU String Nat with
        ll := [⟨"k", 7, 0⟩],
        items := [("k", ⟨"k", 7, 0⟩)] } :
        LRUWithTTL String Nat).items "k" = some ⟨"k", 7, 0⟩ ∧
      ∀ later, (({ defaultLRU String Nat with
        ll := [⟨"k", 7, 0⟩],
        items := [("k", ⟨"k", 7, 0⟩)] } :
        LRUWithTTL String Nat).Get later "k").1 = some 7) ∧
    (defaultLRU String Nat).SetWithTTL 0 "k" 7 (-1) = .error .invalidTTL :=
  ⟨(C8_set_with_ttl (defaultLRU String Nat) 0 "k" 7 5).1 (by decide) _ rfl,
   (C8_set_with_ttl (defaultLRU String Nat) 0 "k" 7 0).2.1 rfl _ rfl,
   (C8_set_with_ttl (defaultLRU String Nat) 0 "k" 7 (-1)).2.2 (by decide)⟩

/-- Claim C2: a store of a brand-new key into a cache holding exactly
`capacity` entries removes the entry at the back of the recency list (the
LRU entry) before inserting; a store to an already-present key never
evicts — it only overwrites value and expiry and promotes to MRU; and the
concrete capacity-2 scenario `set a; set b; get a; set c` leaves `a` and
`c` present and `b` evicted. -/
theorem C2_eviction {K V : Type} [DecidableEq K] :
    (∀ (c : LRUWithTTL K V) (k : K) (v : V) (t : Int) tail,
      WF c → mapGet c.items k = none →
      (c.items.length : Int) = c.capacity → c.ll.getLast? = some tail →
      c.setWithTTLInternal k v t = .ok
        { c with ll := ⟨k, v, t⟩ :: c.ll.dropLast,
                 items := mapSet (mapDelete c.items tail.key) k ⟨k, v, t⟩ } ∧
      mapGet (mapSet (mapDelete c.items tail.key) k
        (⟨k, v, t⟩ : ttlEntry K V)) tail.key = none ∧
      mapGet (mapSet (mapDelete c.items tail.key) k
        (⟨k, v, t⟩ : ttlEntry K V)) k = some ⟨k, v, t⟩) ∧
    (∀ (c c' : LRUWithTTL K V) (k : K) (v : V) (t : Int) old,
      WF c → mapGet c.items k = some old →
      c.setWithTTLInternal k v t = .ok c' →
      c'.items.length = c.items.length ∧
      mapGet c'.items k = some ⟨k, v, t⟩ ∧
      (∀ k', k' ≠ k → mapGet c'.items k' = mapGet c.items k') ∧
      c'.ll.head? = some ⟨k, v, t⟩) ∧
    ((do
      let c0 ← NewLRUTTL (K := String) (V := Nat)
        [.withCapacity 2, .withDefaultTTL 100]
      let c1 ← c0.Set 0 "a" 1
      let c2 ← c1.Set 0 "b" 2
      let c3 : LRUWithTTL String Nat := (c2.Get 0 "a").2
      let c4 ← c3.Set 0 "c" 3
      pure (c4.Get_Exclusive "a", c4.Get_Exclusive "b",
        c4.Get_Exclusive "c")) =
      .ok (some 1, none, some 3)) := by
  refine ⟨?_, ?_, by decide⟩
  · intro c k v t tail hwf hget hsize hlast
    have htailk : tail.key ≠ k := by
      intro hh
      have htmem : tail ∈ c.ll := by
        have hsplit := dropLast_append_of_getLast? hlast
        rw [← hsplit]
        exact List.mem_append_right _ (List.mem_cons_self _ _)
      obtain ⟨-, -, -, -, -, hll⟩ := hwf
      have := hll tail htmem
      rw [hh, hget] at this
      exact Option.noConfusion this
    refine ⟨?_, ?_, ?_⟩
    · unfold LRUWithTTL.setWithTTLInternal
      rw [hget]
      dsimp only
      rw [if_pos (le_of_eq hsize.symm), hlast]
    · rw [mapGet_mapSet, if_neg htailk, mapGet_mapDelete, if_pos rfl]
    · rw [mapGet_mapSet, if_pos rfl]
  · intro c c' k v t old hwf hget hset
    unfold LRUWithTTL.setWithTTLInternal at hset
    rw [hget] at hset
    obtain rfl : _ = c' := by injection hset
    obtain ⟨-, hitn, -, -, -, -⟩ := hwf
    refine ⟨?_, ?_, ?_, rfl⟩
    · have h1 := mapDelete_length hitn hget
      simp only [mapSet, List.length_append, List.length_cons,
        List.length_nil]
      omega
    · rw [mapGet_mapSet, if_pos rfl]
    · intro k' hk'
      rw [mapGet_mapSet, if_neg hk']

/-- Witness for C2: eviction of the LRU tail from a full capacity-1
cache, and a non-evicting update of a present key. -/
theorem C2_witness :
    (sampleCacheCap1.setWithTTLInternal "b" 2 7 = .ok
      { sampleCacheCap1 with
        ll := ⟨"b", 2, 7⟩ :: sampleCacheCap1.ll.dropLast,
        items := mapSet (mapDelete sampleCacheCap1.items "a") "b"
          ⟨"b", 2, 7⟩ }) ∧
    ∀ c', sampleCacheLive.setWithTTLInternal "k" 9 7 = .ok c' →
      c'.items.length = sampleCacheLive.items.length ∧
      mapGet c'.items "k" = some ⟨"k", 9, 7⟩ ∧
      (∀ k', k' ≠ "k" →
        mapGet c'.items k' = mapGet sampleCacheLive.items k') ∧
      c'.ll.head? = some ⟨"k", 9, 7⟩ :=
  ⟨((C2_eviction (K := String) (V := Nat)).1 sampleCacheCap1
      "b" 2 7 ⟨"a", 1, 0⟩ (by decide) rfl (by decide) rfl).1,
   fun c' h => (C2_eviction (K := String) (V := Nat)).2.1
      sampleCacheLive c' "k" 9 7 ⟨"k", 5, 0⟩ (by decide) rfl h⟩

/-- Claim C3, counterexample: constructing a cache through the
`WithItemsMap` option copies bindings into the key map without creating
recency-list nodes, so immediately after construction the map holds one
entry while the list is empty, violating `|map| == |list|`. -/
theorem C3_counterexample :
    NewLRUTTL (K := String) (V := Nat)
        [.withItemsMap [("a", ⟨"b", 7, 0⟩)]] =
      .ok { defaultLRU String Nat with items := [("a", ⟨"b", 7, 0⟩)] } ∧
    ¬ cacheClaimInv ({ defaultLRU String Nat with
        items := [("a", ⟨"b", 7, 0⟩)] } : LRUWithTTL String Nat) :=
  ⟨by decide, by decide⟩

/-- Claim C3, amended: after construction with any options other than the
items-map option, and after every state-changing cache operation applied
to a well-formed cache (`Get`, `Delete`, `Set`, `SetWithTTL`, each sweeper
pass), the map and the recency list have equal size, every key in the map
refers to an entry occurring exactly once in the list with the same key,
and the map size is at most the capacity.  `Get_Exclusive` (peek), `Len`
and `GetAll` (snapshot) do not modify the state, so they preserve the
invariant trivially. -/
theorem C3_invariant_amended {K V : Type} [DecidableEq K] :
    (∀ (opts : List (LRUOption K V)) (c : LRUWithTTL K V),
      (∀ o ∈ opts, o.isItemsMap = false) → NewLRUTTL opts = .ok c →
      WF c ∧ cacheClaimInv c) ∧
    (∀ (c : LRUWithTTL K V) (now : Int) (k : K), WF c →
      WF (c.Get now k).2 ∧ cacheClaimInv (c.Get now k).2) ∧
    (∀ (c : LRUWithTTL K V) (k : K), WF c →
      WF (c.Delete k) ∧ cacheClaimInv (c.Delete k)) ∧
    (∀ (c c' : LRUWithTTL K V) (now : Int) (k : K) (v : V), WF c →
      c.Set now k v = .ok c' → WF c' ∧ cacheClaimInv c') ∧
    (∀ (c c' : LRUWithTTL K V) (now : Int) (k : K) (v : V) (ttl : Int),
      WF c → c.SetWithTTL now k v ttl = .ok c' →
      WF c' ∧ cacheClaimInv c') ∧
    (∀ (c : LRUWithTTL K V) (now : Int), WF c →
      WF (c.cleanupExpired now) ∧ cacheClaimInv (c.cleanupExpired now)) := by
  refine ⟨?_, ?_, ?_, ?_, ?_, ?_⟩
  · intro opts c hno h
    have hwf := NewLRUTTL_WF hno h
    exact ⟨hwf, hwf.claimInv⟩
  · intro c now k hwf
    have hwf' := WF_Get hwf now k
    exact ⟨hwf', hwf'.claimInv⟩
  · intro c k hwf
    have hwf' := WF_Delete hwf k
    exact ⟨hwf', hwf'.claimInv⟩
  · intro c c' now k v hwf h
    have hwf' := WF_Set hwf now k v h
    exact ⟨hwf', hwf'.claimInv⟩
  · intro c c' now k v ttl hwf h
    have hwf' := WF_SetWithTTL hwf now k v ttl h
    exact ⟨hwf', hwf'.claimInv⟩
  · intro c now hwf
    have hwf' := WF_cleanupExpired hwf now
    exact ⟨hwf', hwf'.claimInv⟩

/-- Witness for the amended C3: an item-map-free construction is well
formed, and a concrete `Get` preserves the invariant. -/
theorem C3_witness :
    (WF ({ defaultLRU String Nat with capacity := 2 } :
        LRUWithTTL String Nat) ∧
      cacheClaimInv ({ defaultLRU String Nat with capacity := 2 } :
        LRUWithTTL String Nat)) ∧
    (WF (sampleCacheExpired.Get 10 "k").2 ∧
      cacheClaimInv (sampleCacheExpired.Get 10 "k").2) :=
  ⟨(C3_invariant_amended (K := String) (V := Nat)).1
      [.withCapacity 2] _ (by decide) rfl,
   (C3_invariant_amended (K := String) (V := Nat)).2.1
      sampleCacheExpired 10 "k" (by decide)⟩

/-- Claim C9: the code contradicts the sweeper lifecycle the spec and the
source comments describe.  `StartCleanupDaemon` neither checks nor sets
`cleanupRunning`, so (1) a second start launches a second concurrent
sweeper (two goroutines selecting on the same stop channel), and (2) after
`stop; start`, the relaunched sweeper can never be stopped: the following
stop finds `cleanupRunning = false` and leaves the goroutine running. -/
theorem C9_sweeper_bug :
    (newDaemonState nsPerSec true).map (fun s =>
      s.StartCleanupDaemon.map (fun s2 => s2.active.length)) =
      .ok (.ok 2) ∧
    (newDaemonState nsPerSec true).map (fun s =>
      s.StopCleanupDaemon.StartCleanupDaemon.map (fun s2 =>
        (s2.StopCleanupDaemon.active, s2.StopCleanupDaemon.cleanupRunning)))
      = .ok (.ok ([1], false)) :=
  ⟨by decide, by decide⟩

/-- Claim C4: the freshness policy computes the absolute expiry as
`now + N` seconds for the first positive `max-age=N`/`s-maxage=N`
directive of `Cache-Control` (parsed case-insensitively, whitespace
trimmed around directives, `max-age` and `s-maxage` at equal precedence,
first positive value wins — witnessed by the concrete directive strings);
otherwise the parsed `Expires` header when it parses as an HTTP-date
(`pt` abstracts the stdlib `http.ParseTime`); otherwise `now + 60`
seconds, the built-in default. -/
theorem C4_freshness (pt : String → Option Int) (h : Header) (now : Int) :
    (parseMaxAge (hGet h "Cache-Control") > 0 →
      calculateExpiresAt pt h now =
        now + parseMaxAge (hGet h "Cache-Control") * nsPerSec) ∧
    (parseMaxAge (hGet h "Cache-Control") ≤ 0 →
      (∀ t, hGet h "Expires" ≠ "" → pt (hGet h "Expires") = some t →
        calculateExpiresAt pt h now = t) ∧
      (hGet h "Expires" = "" ∨ pt (hGet h "Expires") = none →
        calculateExpiresAt pt h now = now + 60 * nsPerSec)) ∧
    parseMaxAge "public, max-age=3600" = 3600 ∧
    parseMaxAge " Max-Age=60 , s-maxage=10" = 60 ∧
    parseMaxAge "S-MAXAGE=2, max-age=9" = 2 ∧
    parseMaxAge "max-age=0, s-maxage=5" = 5 ∧
    parseMaxAge "no-cache" = 0 := by
  have hpm0 : parseMaxAge "" = 0 := by decide
  refine ⟨?_, ?_, by decide, by decide, by decide, by decide, by decide⟩
  · intro hpos
    have hcc : hGet h "Cache-Control" ≠ "" := by
      intro hempty
      rw [hempty, hpm0] at hpos
      omega
    unfold calculateExpiresAt
    dsimp only
    rw [if_pos hcc, if_pos hpos]
  · intro hle
    have hccnone : (if hGet h "Cache-Control" ≠ "" then
        (if parseMaxAge (hGet h "Cache-Control") > 0 then
          some (now + parseMaxAge (hGet h "Cache-Control") * nsPerSec)
        else none) else none) = none := by
      by_cases hcc : hGet h "Cache-Control" ≠ ""
      · rw [if_pos hcc, if_neg (by omega)]
      · rw [if_neg hcc]
    constructor
    · intro t hes hpt
      unfold calculateExpiresAt
      dsimp only
      rw [hccnone]
      dsimp only
      rw [if_pos hes, hpt]
    · intro hdef
      unfold calculateExpiresAt
      dsimp only
      rw [hccnone]
      dsimp only
      rcases hdef with hes | hptn
      · rw [if_neg (by simp [hes])]
      · by_cases hes : hGet h "Expires" ≠ ""
        · rw [if_pos hes, hptn]
        · rw [if_neg hes]

/-- Witness for C4: a max-age response, an Expires-only response against
a concrete HTTP-date parser, and a header with neither. -/
theorem C4_witness :
    (parseMaxAge (hGet [("Cache-Control", ["max-age=60"])] "Cache-Control")
        > 0 ∧
      calculateExpiresAt (fun _ => none)
        [("Cache-Control", ["max-age=60"])] 0 =
        0 + parseMaxAge
          (hGet [("Cache-Control", ["max-age=60"])] "Cache-Control")
          * nsPerSec) ∧
    calculateExpiresAt (fun s => if s = "date" then some 42 else none)
      [("Expires", ["date"])] 0 = 42 ∧
    calculateExpiresAt (fun _ => none) [] 0 = 0 + 60 * nsPerSec :=
  ⟨⟨by decide,
    (C4_freshness (fun _ => none) [("Cache-Control", ["max-age=60"])] 0).1
      (by decide)⟩,
   ((C4_freshness (fun s => if s = "date" then some 42 else none)
      [("Expires", ["date"])] 0).2.1 (by decide)).1 42 (by decide)
      (by decide),
   ((C4_freshness (fun _ => none) ([] : Header) 0).2.1 (by decide)).2
     (Or.inl (by decide))⟩

/-- Claim C5: for every request handled by the pipeline (given that every
response already stored in the attached cache is hop-by-hop-free, which
the store path below maintains), none of the nine hop-by-hop header names
appears — case-insensitively — in the outbound upstream request, in the
response headers written to the client, or in any header map stored in
the cache afterwards. -/
theorem C5_hop_by_hop (p : Proxy)
    (cacheOpt : Option (LRUWithTTL String CachedResponse)) (now : Int)
    (r : Request) (transport : Request → TransportResult)
    (hcf : ∀ c0, cacheOpt = some c0 → cacheHopFree c0) :
    ∀ res, ServeHTTP p cacheOpt now r transport = .ok res →
      (∀ outReq, res.outbound = some outReq → hopFree outReq.header) ∧
      hopFree res.clientHeader ∧
      (∀ c', res.cacheAfter = some c' → cacheHopFree c') := by
  intro res hres
  unfold ServeHTTP at hres
  dsimp only at hres
  by_cases hm : decide (r.method = "GET") = true
  · rw [if_pos hm] at hres
    cases cacheOpt with
    | none =>
      dsimp only at hres
      exact serveMiss_hopFree hcf res hres
    | some c =>
      dsimp only at hres
      cases hlook : (c.Get now (getUniqueReqKey r)).1 with
      | some cached =>
        rw [hlook] at hres
        dsimp only at hres
        obtain rfl : _ = res := by injection hres
        obtain ⟨e, hget, hval, hexp⟩ := Get_hit_entry hlook
        have hhf : hopFree cached.header := by
          rw [← hval]
          exact (hcf c rfl).2 (getUniqueReqKey r, e) (mapGet_mem hget)
        refine ⟨?_, ?_, ?_⟩
        · intro q hq
          exact absurd hq (by simp [serveCachedResponse])
        · simpa [serveCachedResponse] using
            hopFree_copyHeaders hopFree_nil hhf
        · intro c' hc'
          have hs : some (c.Get now (getUniqueReqKey r)).2 = some c' := by
            simpa [serveCachedResponse] using hc'
          obtain rfl : _ = c' := by injection hs
          exact cacheHopFree_Get (hcf c rfl) now _
      | none =>
        rw [hlook] at hres
        dsimp only at hres
        refine serveMiss_hopFree ?_ res hres
        intro c0 h0
        obtain rfl : (c.Get now (getUniqueReqKey r)).2 = c0 := by
          injection h0
        exact cacheHopFree_Get (hcf c rfl) now _
  · rw [if_neg hm] at hres
    exact serveMiss_hopFree hcf res hres

/-- Witness for C5: a GET through a cache-less proxy whose transport
fails — the outbound request built from a request carrying `Connection`
is hop-free, as is the (empty) client error header. -/
theorem C5_witness :
    hopFree (buildUpstreamRequest sampleProxy sampleGetReq).header ∧
    hopFree ([] : Header) := by
  have happ := C5_hop_by_hop sampleProxy none 0 sampleGetReq
    (fun _ => .transportErr) (fun c0 h0 => Option.noConfusion h0)
    { status := 502, clientHeader := [], body := "upstream error",
      cacheAfter := none,
      outbound := some (buildUpstreamRequest sampleProxy sampleGetReq) }
    rfl
  exact ⟨happ.1 _ rfl, happ.2.1⟩

/-- Claim C6, counterexample: with an expired entry cached under the
requested key and a failing transport, the pipeline answers 502
"upstream error" and stores nothing, but the cache contents are NOT
unchanged: the initial lookup removed the expired entry (1 entry before,
0 after), contradicting the claim's "cache contents are unchanged". -/
theorem C6_counterexample :
    (ServeHTTP sampleProxy (some sampleProxyCacheExpired) 10 sampleGetReq
        (fun _ => .transportErr)).map
      (fun res => (res.status, res.body,
        res.cacheAfter.map (fun c => c.items.length))) =
      .ok (502, "upstream error", some 0) ∧
    sampleProxyCacheExpired.items.length = 1 :=
  ⟨by decide, by decide⟩

/-- Claim C6, amended: on a transport failure the client receives 502
with body "upstream error", on an upstream body-read failure 500 with
body "error reading response"; in both cases nothing is stored and the
cache after the request is exactly the cache after the initial lookup
(which, for a GET with a cache attached, may as a side effect have
removed an expired entry under the requested key); without a cache, or
for a non-GET request, the cache value is untouched. -/
theorem C6_failure_paths (p : Proxy) (c : LRUWithTTL String CachedResponse)
    (now : Int) (r : Request) (transport : Request → TransportResult) :
    (r.method = "GET" → (c.Get now (getUniqueReqKey r)).1 = none →
      transport (buildUpstreamRequest p r) = .transportErr →
      ServeHTTP p (some c) now r transport = .ok
        { status := 502, clientHeader := [], body := "upstream error",
          cacheAfter := some (c.Get now (getUniqueReqKey r)).2,
          outbound := some (buildUpstreamRequest p r) }) ∧
    (r.method = "GET" → (c.Get now (getUniqueReqKey r)).1 = none →
      ∀ resp, transport (buildUpstreamRequest p r) = .ok resp →
        resp.bodyRead = .error () →
        ServeHTTP p (some c) now r transport = .ok
          { status := 500, clientHeader := [],
            body := "error reading response",
            cacheAfter := some (c.Get now (getUniqueReqKey r)).2,
            outbound := some (buildUpstreamRequest p r) }) ∧
    (∀ cacheOpt, ¬ r.method = "GET" →
      transport (buildUpstreamRequest p r) = .transportErr →
      ServeHTTP p cacheOpt now r transport = .ok
        { status := 502, clientHeader := [], body := "upstream error",
          cacheAfter := cacheOpt,
          outbound := some (buildUpstreamRequest p r) }) ∧
    (∀ cacheOpt resp, ¬ r.method = "GET" →
      transport (buildUpstreamRequest p r) = .ok resp →
      resp.bodyRead = .error () →
      ServeHTTP p cacheOpt now r transport = .ok
        { status := 500, clientHeader := [],
          body := "error reading response", cacheAfter := cacheOpt,
          outbound := some (buildUpstreamRequest p r) }) ∧
    (r.method = "GET" →
      transport (buildUpstreamRequest p r) = .transportErr →
      ServeHTTP p none now r transport = .ok
        { status := 502, clientHeader := [], body := "upstream error",
          cacheAfter := none,
          outbound := some (buildUpstreamRequest p r) }) := by
  refine ⟨?_, ?_, ?_, ?_, ?_⟩
  · intro hm hmiss htr
    unfold ServeHTTP
    dsimp only
    rw [if_pos (by simp [hm])]
    rw [hmiss]
    dsimp only
    exact serveMiss_transportErr htr
  · intro hm hmiss resp htr hbody
    unfold ServeHTTP
    dsimp only
    rw [if_pos (by simp [hm])]
    rw [hmiss]
    dsimp only
    exact serveMiss_bodyErr htr hbody
  · intro cacheOpt hm htr
    unfold ServeHTTP
    dsimp only
    rw [if_neg (by simp [hm])]
    exact serveMiss_transportErr htr
  · intro cacheOpt resp hm htr hbody
    unfold ServeHTTP
    dsimp only
    rw [if_neg (by simp [hm])]
    exact serveMiss_bodyErr htr hbody
  · intro hm htr
    unfold ServeHTTP
    dsimp only
    rw [if_pos (by simp [hm])]
    exact serveMiss_transportErr htr

/-- Witness for the amended C6: concrete GET against the expired-entry
cache with a failing transport. -/
theorem C6_witness :
    ServeHTTP sampleProxy (some sampleProxyCacheExpired) 10 sampleGetReq
        (fun _ => .transportErr) = .ok
      { status := 502, clientHeader := [], body := "upstream error",
        cacheAfter := some
          (sampleProxyCacheExpired.Get 10 (getUniqueReqKey sampleGetReq)).2,
        outbound := some (buildUpstreamRequest sampleProxy sampleGetReq) } :=
  (C6_failure_paths sampleProxy sampleProxyCacheExpired 10 sampleGetReq
    (fun _ => .transportErr)).1 rfl (by decide) rfl

/-- Claim C10, counterexample: two inbound requests that differ only in
the client-supplied `X-Forwarded-For` value, whose shared remote address
`"badaddr"` cannot be split into host and port, produce outbound requests
with different `X-Forwarded-For` values: the header is not omitted but
forwarded unchanged, contradicting the claim. -/
theorem C10_counterexample :
    hGet (buildUpstreamRequest sampleProxy
      { method := "GET", urlString := "/x", urlScheme := "http",
        urlHost := "example.com", urlPath := "/x", host := "example.com",
        header := [("X-Forwarded-For", ["evil"])],
        remoteAddr := "badaddr", tls := false }).header "X-Forwarded-For"
      = "evil" ∧
    hGet (buildUpstreamRequest sampleProxy
      { method := "GET", urlString := "/x", urlScheme := "http",
        urlHost := "example.com", urlPath := "/x", host := "example.com",
        header := [("X-Forwarded-For", ["spoof"])],
        remoteAddr := "badaddr", tls := false }).header "X-Forwarded-For"
      = "spoof" ∧
    splitHostPortHost "badaddr" = none :=
  ⟨by decide, by decide, by decide⟩

/-- Claim C10, amended: the outbound `X-Forwarded-Host` and
`X-Forwarded-Proto` are always computed solely from the inbound `Host`
and TLS indicator (client-supplied values overwritten), and when the
shared remote address splits into host and port, `X-Forwarded-For` is
overwritten with that host portion — so two inbound requests differing
only in client-supplied `X-Forwarded-*` values produce identical values
for all three headers.  When the remote address cannot be split, the
client-supplied `X-Forwarded-For` survives into the outbound request
(it is forwarded, not omitted). -/
theorem C10_forwarded_headers (p : Proxy) (r1 r2 : Request)
    (hh : r1.host = r2.host) (ht : r1.tls = r2.tls)
    (ha : r1.remoteAddr = r2.remoteAddr) :
    hGet (buildUpstreamRequest p r1).header "X-Forwarded-Host" =
      hGet (buildUpstreamRequest p r2).header "X-Forwarded-Host" ∧
    hGet (buildUpstreamRequest p r1).header "X-Forwarded-Proto" =
      hGet (buildUpstreamRequest p r2).header "X-Forwarded-Proto" ∧
    (∀ s, splitHostPortHost r1.remoteAddr = some s →
      hGet (buildUpstreamRequest p r1).header "X-Forwarded-For" = s ∧
      hGet (buildUpstreamRequest p r2).header "X-Forwarded-For" = s) := by
  refine ⟨?_, ?_, ?_⟩
  · rw [buildUpstreamRequest_xfh, buildUpstreamRequest_xfh, hh]
  · rw [buildUpstreamRequest_xfp, buildUpstreamRequest_xfp, ht]
  · intro s hs
    refine ⟨buildUpstreamRequest_xff hs, buildUpstreamRequest_xff ?_⟩
    rw [← ha]
    exact hs

/-- Witness for the amended C10: two requests differing only in their
client-supplied `X-Forwarded-For`, with a splittable remote address. -/
theorem C10_witness :
    hGet (buildUpstreamRequest sampleProxy sampleGetReq).header
        "X-Forwarded-Host" =
      hGet (buildUpstreamRequest sampleProxy
        { sampleGetReq with header := [("X-Forwarded-For", ["spoof"])] }
        ).header "X-Forwarded-Host" ∧
    hGet (buildUpstreamRequest sampleProxy sampleGetReq).header
        "X-Forwarded-For" = "9.9.9.9" := by
  have happ := C10_forwarded_headers sampleProxy sampleGetReq
    { sampleGetReq with header := [("X-Forwarded-For", ["spoof"])] }
    rfl rfl rfl
  exact ⟨happ.1, (happ.2.2 "9.9.9.9" (by decide)).1⟩

end Revproxy
